import Mathlib

/-!
Verification of the reverse-ETL core: a shallow embedding of the
mapping validator, the transformation engine, the identifier sanitizer,
the connection gate and the pooled-connection registry
(`backend/src/services/securityService.ts`, `tableService.ts`,
`connectionService.ts`, `validation/schemas.ts`), together with proofs
of the behavioural properties claimed for them.

Strings are modelled by Lean `String` (a list of Unicode scalar values);
for the ASCII identifiers and paths handled by the service this agrees
with JavaScript's UTF-16 view.  Database values are modelled as scalars
or null, matching the data model (`OutputDocument` leaves hold scalar
values or null).
-/

namespace RevETL

/-! ### Character and string utilities -/

/-- ASCII whitespace recognised by `String.prototype.trim` (the service
only ever trims ASCII input). -/
def isWSChar (c : Char) : Bool :=
  c = ' ' || c = '\t' || c = '\n' || c = '\r'

/-- Remove leading and trailing whitespace from a character list. -/
def trimChars (l : List Char) : List Char :=
  ((l.dropWhile isWSChar).reverse.dropWhile isWSChar).reverse

/-- `targetPath.trim()` — the normalization applied to every target path. -/
def normPath (s : String) : String :=
  ⟨trimChars s.data⟩

/-- `l.split "."` on character lists, exactly as JavaScript
`String.prototype.split(".")`: every dot separates, empty segments are kept. -/
def splitD : List Char → List (List Char)
  | [] => [[]]
  | c :: cs =>
    match splitD cs with
    | seg :: rest => if c = '.' then [] :: seg :: rest else (c :: seg) :: rest
    | [] => [[]]

/-- Join segments back with `.` separators (inverse of `splitD`). -/
def joinDots : List (List Char) → List Char
  | [] => []
  | [s] => s
  | s :: rest => s ++ '.' :: joinDots rest

/-- `targetPath.trim().split(".")` as a list of segment strings. -/
def splitSegs (s : String) : List String :=
  (splitD s.data).map fun l => ⟨l⟩

theorem splitD_cons_eq (l : List Char) :
    ∃ seg rest, splitD l = seg :: rest := by
  induction l with
  | nil => exact ⟨[], [], rfl⟩
  | cons c cs ih =>
    obtain ⟨seg, rest, h⟩ := ih
    by_cases hc : c = '.'
    · exact ⟨[], seg :: rest, by simp [splitD, h, hc]⟩
    · exact ⟨c :: seg, rest, by simp [splitD, h, hc]⟩

theorem splitD_ne_nil (l : List Char) : splitD l ≠ [] := by
  obtain ⟨seg, rest, h⟩ := splitD_cons_eq l
  simp [h]

theorem splitD_cons_eq_ite (d : Char) (ds seg : List Char) (rest : List (List Char))
    (h : splitD ds = seg :: rest) :
    splitD (d :: ds) = if d = '.' then [] :: seg :: rest else (d :: seg) :: rest := by
  simp [splitD, h]

theorem joinDots_cons_of_ne (a : List Char) (R : List (List Char)) (h : R ≠ []) :
    joinDots (a :: R) = a ++ '.' :: joinDots R := by
  cases R with
  | nil => exact absurd rfl h
  | cons x xs => rfl

theorem splitD_append_dot (l r : List Char) :
    splitD (l ++ '.' :: r) = splitD l ++ splitD r := by
  induction l with
  | nil =>
    obtain ⟨seg, rest, h⟩ := splitD_cons_eq r
    rw [List.nil_append, splitD_cons_eq_ite '.' r seg rest h, if_pos rfl]
    simp [splitD, h]
  | cons c cs ih =>
    obtain ⟨seg, rest, h⟩ := splitD_cons_eq cs
    obtain ⟨seg2, rest2, h2⟩ := splitD_cons_eq (cs ++ '.' :: r)
    have hseg : seg2 = seg ∧ rest2 = rest ++ splitD r := by
      have hihe := ih
      rw [h2, h, List.cons_append] at hihe
      exact ⟨List.head_eq_of_cons_eq hihe, List.tail_eq_of_cons_eq hihe⟩
    rw [List.cons_append, splitD_cons_eq_ite c _ _ _ h2,
      splitD_cons_eq_ite c cs seg rest h, hseg.1, hseg.2]
    by_cases hc : c = '.'
    · rw [if_pos hc, if_pos hc]
      simp
    · rw [if_neg hc, if_neg hc]
      simp

theorem joinDots_splitD (l : List Char) : joinDots (splitD l) = l := by
  induction l with
  | nil => simp [splitD, joinDots]
  | cons c cs ih =>
    obtain ⟨seg, rest, h⟩ := splitD_cons_eq cs
    rw [h] at ih
    rw [splitD_cons_eq_ite c cs seg rest h]
    by_cases hc : c = '.'
    · rw [if_pos hc, joinDots_cons_of_ne [] (seg :: rest) (by simp), ih, hc]
      rfl
    · rw [if_neg hc]
      cases rest with
      | nil =>
        simp only [joinDots] at ih ⊢
        rw [← ih]
      | cons s t =>
        rw [joinDots_cons_of_ne (c :: seg) (s :: t) (by simp)]
        rw [joinDots_cons_of_ne seg (s :: t) (by simp)] at ih
        rw [List.cons_append, ih]

theorem joinDots_append (A B : List (List Char)) (hA : A ≠ []) (hB : B ≠ []) :
    joinDots (A ++ B) = joinDots A ++ '.' :: joinDots B := by
  induction A with
  | nil => exact absurd rfl hA
  | cons a A ih =>
    cases A with
    | nil =>
      cases B with
      | nil => exact absurd rfl hB
      | cons b B2 => simp [joinDots_cons_of_ne a (b :: B2) (by simp), joinDots]
    | cons a2 A2 =>
      have h2 : a2 :: A2 ≠ [] := by simp
      rw [List.cons_append, joinDots_cons_of_ne a ((a2 :: A2) ++ B) (by simp),
        ih h2, joinDots_cons_of_ne a (a2 :: A2) h2]
      simp

/-- A character-by-character membership decomposition of `splitD`. -/
theorem mem_splitD_of_mem (l : List Char) (c : Char) (hc : c ∈ l) :
    c = '.' ∨ ∃ seg ∈ splitD l, c ∈ seg := by
  induction l with
  | nil => cases hc
  | cons d ds ih =>
    obtain ⟨seg, rest, h⟩ := splitD_cons_eq ds
    rw [splitD_cons_eq_ite d ds seg rest h]
    rcases List.mem_cons.mp hc with rfl | hc2
    · by_cases hd : c = '.'
      · exact Or.inl hd
      · refine Or.inr ⟨c :: seg, ?_, List.mem_cons_self _ _⟩
        rw [if_neg hd]
        exact List.mem_cons_self _ _
    · rcases ih hc2 with h1 | ⟨seg2, hs2, hcs2⟩
      · exact Or.inl h1
      · rw [h] at hs2
        by_cases hd : d = '.'
        · refine Or.inr ⟨seg2, ?_, hcs2⟩
          rw [if_pos hd]
          exact List.mem_cons_of_mem _ hs2
        · rcases List.mem_cons.mp hs2 with rfl | hs3
          · refine Or.inr ⟨d :: seg2, ?_, List.mem_cons_of_mem _ hcs2⟩
            rw [if_neg hd]
            exact List.mem_cons_self _ _
          · refine Or.inr ⟨seg2, ?_, hcs2⟩
            rw [if_neg hd]
            exact List.mem_cons_of_mem _ hs3

/-! ### Lexicographic order on strings

JavaScript's default `Array.prototype.sort()` compares strings by their
UTF-16 code units; on the ASCII strings handled here this is the
code-point lexicographic order below. -/

/-- Lexicographic `≤` on character lists. -/
def lexLe : List Char → List Char → Bool
  | [], _ => true
  | _ :: _, [] => false
  | a :: as, b :: bs => if a < b then true else if b < a then false else lexLe as bs

theorem lexLe_refl (l : List Char) : lexLe l l = true := by
  induction l with
  | nil => rfl
  | cons a as ih => simp [lexLe, ih]

theorem lexLe_total (a b : List Char) : lexLe a b = true ∨ lexLe b a = true := by
  induction a generalizing b with
  | nil => exact Or.inl rfl
  | cons x xs ih =>
    cases b with
    | nil => exact Or.inr rfl
    | cons y ys =>
      rcases lt_trichotomy x y with h | h | h
      · exact Or.inl (by simp [lexLe, h])
      · subst h
        rcases ih ys with h2 | h2
        · exact Or.inl (by simp [lexLe, h2])
        · exact Or.inr (by simp [lexLe, h2])
      · exact Or.inr (by simp [lexLe, h])

theorem lexLe_trans (a b c : List Char) (h1 : lexLe a b = true)
    (h2 : lexLe b c = true) : lexLe a c = true := by
  induction a generalizing b c with
  | nil => rfl
  | cons x xs ih =>
    cases b with
    | nil => simp [lexLe] at h1
    | cons y ys =>
      cases c with
      | nil => simp [lexLe] at h2
      | cons z zs =>
        simp only [lexLe] at h1 h2 ⊢
        rcases lt_trichotomy x y with hxy | hxy | hxy
        · rcases lt_trichotomy y z with hyz | hyz | hyz
          · simp [lt_trans hxy hyz]
          · subst hyz; simp [hxy]
          · rw [if_neg (lt_asymm hyz), if_pos hyz] at h2
            exact absurd h2 (by simp)
        · subst hxy
          rcases lt_trichotomy x z with hxz | hxz | hxz
          · simp [hxz]
          · subst hxz
            rw [if_neg (lt_irrefl x), if_neg (lt_irrefl x)] at h1 h2 ⊢
            exact ih ys zs h1 h2
          · rw [if_neg (lt_asymm hxz), if_pos hxz] at h2
            exact absurd h2 (by simp)
        · rw [if_neg (lt_asymm hxy), if_pos hxy] at h1
          exact absurd h1 (by simp)

theorem lexLe_antisymm (a b : List Char) (h1 : lexLe a b = true)
    (h2 : lexLe b a = true) : a = b := by
  induction a generalizing b with
  | nil =>
    cases b with
    | nil => rfl
    | cons y ys => simp [lexLe] at h2
  | cons x xs ih =>
    cases b with
    | nil => simp [lexLe] at h1
    | cons y ys =>
      simp only [lexLe] at h1 h2
      rcases lt_trichotomy x y with hxy | hxy | hxy
      · simp [hxy, not_lt_of_gt hxy] at h2
      · subst hxy
        simp only [lt_irrefl, if_false] at h1 h2
        rw [ih ys h1 h2]
      · simp [hxy, not_lt_of_gt hxy] at h1

/-- The order used to model `[...seen].sort()` on normalized paths. -/
def pathLe (a b : String) : Prop := lexLe a.data b.data = true

instance : DecidableRel pathLe := fun a b =>
  inferInstanceAs (Decidable (lexLe a.data b.data = true))

instance : IsTotal String pathLe :=
  ⟨fun a b => lexLe_total a.data b.data⟩

instance : IsTrans String pathLe :=
  ⟨fun a b c => lexLe_trans a.data b.data c.data⟩

theorem pathLe_antisymm {a b : String} (h1 : pathLe a b) (h2 : pathLe b a) :
    a = b := by
  cases a; cases b
  exact congrArg String.mk (lexLe_antisymm _ _ h1 h2)

/-- `[...seen].sort()`: sorting the distinct normalized paths. -/
def sortPaths (ps : List String) : List String :=
  List.insertionSort pathLe ps

/-! ### Dot-prefix relations and path syntax -/

/-- `startsWithL pre l`: `l` starts with `pre`
(JavaScript `String.prototype.startsWith`). -/
def startsWithL : List Char → List Char → Bool
  | [], _ => true
  | _ :: _, [] => false
  | a :: as, b :: bs => a = b && startsWithL as bs

theorem startsWithL_iff (pre l : List Char) :
    startsWithL pre l = true ↔ ∃ t, l = pre ++ t := by
  induction pre generalizing l with
  | nil => simp [startsWithL]
  | cons a as ih =>
    cases l with
    | nil =>
      simp only [startsWithL]
      constructor
      · intro h; cases h
      · rintro ⟨t, ht⟩; cases ht
    | cons b bs =>
      simp only [startsWithL, Bool.and_eq_true, decide_eq_true_eq, ih]
      constructor
      · rintro ⟨rfl, t, rfl⟩; exact ⟨t, rfl⟩
      · rintro ⟨t, ht⟩
        rw [List.cons_append] at ht
        exact ⟨(List.head_eq_of_cons_eq ht).symm ▸ rfl,
          t, List.tail_eq_of_cons_eq ht⟩

theorem startsWithL_length {pre l : List Char} (h : startsWithL pre l = true) :
    pre.length ≤ l.length := by
  obtain ⟨t, rfl⟩ := (startsWithL_iff pre l).mp h
  simp

/-- `q.startsWith(p + ".")`: `p` is a strict dot-prefix of `q`.  This is the
collision test from `MappingService.validateMapping`. -/
def dotPrefixB (p q : String) : Bool :=
  startsWithL (p.data ++ ['.']) q.data

theorem dotPrefixB_iff (p q : String) :
    dotPrefixB p q = true ↔ ∃ t, q.data = p.data ++ '.' :: t := by
  rw [dotPrefixB, startsWithL_iff]
  constructor
  · rintro ⟨t, ht⟩; exact ⟨t, by simpa using ht⟩
  · rintro ⟨t, ht⟩; exact ⟨t, by simpa using ht⟩

theorem ne_of_dotPrefixB {p q : String} (h : dotPrefixB p q = true) : p ≠ q := by
  obtain ⟨t, ht⟩ := (dotPrefixB_iff p q).mp h
  intro he
  subst he
  have : p.data.length = p.data.length + (t.length + 1) := by
    conv_lhs => rw [ht]
    simp [Nat.add_comm, Nat.add_assoc, Nat.add_left_comm]
  omega

theorem lexLe_of_dotPrefixB {p q : String} (h : dotPrefixB p q = true) :
    lexLe p.data q.data = true := by
  obtain ⟨t, ht⟩ := (dotPrefixB_iff p q).mp h
  rw [ht]
  clear ht
  induction p.data with
  | nil => rfl
  | cons a as ih => simp [lexLe, ih]

/-- The segment pattern `^[a-zA-Z_][a-zA-Z0-9_]*$` used both by
`validateMapping` and by `sanitizeIdentifier`. -/
def isIdentStartChar (c : Char) : Bool :=
  ('a' ≤ c && c ≤ 'z') || ('A' ≤ c && c ≤ 'Z') || c = '_'

def isIdentChar (c : Char) : Bool :=
  isIdentStartChar c || ('0' ≤ c && c ≤ '9')

/-- `^[a-zA-Z_][a-zA-Z0-9_]*$.test(s)` (also `!seg` is covered: the empty
segment fails). -/
def isIdentB (s : String) : Bool :=
  match s.data with
  | [] => false
  | c :: cs => isIdentStartChar c && cs.all isIdentChar

/-- A syntactically valid normalized target path: every dot-separated
segment matches the identifier pattern. -/
def validPathB (s : String) : Bool :=
  (splitSegs s).all isIdentB

theorem dotLe_of_identStart {c : Char} (h : isIdentStartChar c = true) :
    ('.' : Char) ≤ c := by
  rcases Bool.or_eq_true _ _ |>.mp h with h1 | h1
  · rcases Bool.or_eq_true _ _ |>.mp h1 with h2 | h2
    · have := (Bool.and_eq_true _ _).mp h2
      have ha : ('a' : Char) ≤ c := of_decide_eq_true this.1
      exact le_trans (by decide) ha
    · have := (Bool.and_eq_true _ _).mp h2
      have ha : ('A' : Char) ≤ c := of_decide_eq_true this.1
      exact le_trans (by decide) ha
  · have : c = '_' := of_decide_eq_true h1
    rw [this]
    decide

theorem dotLe_of_identChar {c : Char} (h : isIdentChar c = true) :
    ('.' : Char) ≤ c := by
  rcases Bool.or_eq_true _ _ |>.mp h with h1 | h1
  · exact dotLe_of_identStart h1
  · have := (Bool.and_eq_true _ _).mp h1
    have ha : ('0' : Char) ≤ c := of_decide_eq_true this.1
    exact le_trans (by decide) ha

/-- Every character of a syntactically valid path is `≥ '.'`
(the identifier characters all lie above `'.'` in code-point order). -/
theorem validPathB_char_bound {s : String} (h : validPathB s = true) :
    ∀ c ∈ s.data, ('.' : Char) ≤ c := by
  intro c hc
  rcases mem_splitD_of_mem s.data c hc with rfl | ⟨seg, hs, hcs⟩
  · exact le_refl _
  · have hseg : isIdentB ⟨seg⟩ = true := by
      have := (List.all_eq_true).mp h ⟨seg⟩
      exact this (List.mem_map_of_mem _ hs)
    cases seg with
    | nil => cases hcs
    | cons d ds =>
      simp only [isIdentB, Bool.and_eq_true] at hseg
      rcases List.mem_cons.mp hcs with rfl | hcd
      · exact dotLe_of_identStart hseg.1
      · exact dotLe_of_identChar ((List.all_eq_true).mp hseg.2 c hcd)

/-- Key completeness lemma for the sorted adjacent-pair scan: if `p < r ≤ q`
in lexicographic order, every character of `r` is `≥ '.'`, and `p` is a
strict dot-prefix of `q`, then `p` is a strict dot-prefix of `r` as well. -/
theorem dot_prefix_squeeze :
    ∀ (p r q : List Char), (∀ c ∈ r, ('.' : Char) ≤ c) →
    lexLe p r = true → p ≠ r → lexLe r q = true →
    startsWithL (p ++ ['.']) q = true → startsWithL (p ++ ['.']) r = true := by
  intro p
  induction p with
  | nil =>
    intro r q hr _ hne hrq hpq
    cases r with
    | nil => exact absurd rfl hne
    | cons c rs =>
      cases q with
      | nil => simp [lexLe] at hrq
      | cons d qs =>
        have hd : d = '.' := by
          have := (startsWithL_iff _ _).mp hpq
          obtain ⟨t, ht⟩ := this
          simpa using (List.head_eq_of_cons_eq ht)
        subst hd
        have hcge : ('.' : Char) ≤ c := hr c (List.mem_cons_self _ _)
        simp only [lexLe] at hrq
        rcases lt_trichotomy c '.' with hlt | heq | hgt
        · exact absurd hlt (not_lt_of_ge hcge)
        · subst heq
          simp [startsWithL]
        · rw [if_neg (lt_asymm hgt), if_pos hgt] at hrq
          exact absurd hrq (by simp)
  | cons a as ih =>
    intro r q hr hpr hne hrq hpq
    cases r with
    | nil => simp [lexLe] at hpr
    | cons c rs =>
      cases q with
      | nil => simp [lexLe] at hrq
      | cons d qs =>
        have hda : a = d := by
          obtain ⟨t, ht⟩ := (startsWithL_iff _ _).mp hpq
          rw [List.cons_append] at ht
          exact (List.head_eq_of_cons_eq ht).symm
        subst hda
        have hq' : startsWithL (as ++ ['.']) qs = true := by
          obtain ⟨t, ht⟩ := (startsWithL_iff _ _).mp hpq
          rw [List.cons_append] at ht
          rw [startsWithL_iff]
          refine ⟨t, ?_⟩
          rw [List.tail_eq_of_cons_eq ht]
          simp
        simp only [lexLe] at hpr hrq
        rcases lt_trichotomy a c with hac | hac | hac
        · rw [if_neg (lt_asymm hac), if_pos hac] at hrq
          exact absurd hrq (by simp)
        · subst hac
          rw [if_neg (lt_irrefl a), if_neg (lt_irrefl a)] at hpr hrq
          have hne2 : as ≠ rs := by
            intro he; exact hne (by rw [he])
          have hr2 : ∀ c2 ∈ rs, ('.' : Char) ≤ c2 := fun c2 hc2 =>
            hr c2 (List.mem_cons_of_mem _ hc2)
          have := ih rs qs hr2 hpr hne2 hrq hq'
          simpa [startsWithL] using this
        · rw [if_neg (lt_asymm hac), if_pos hac] at hpr
          exact absurd hpr (by simp)

/-! ### Mapping validator (`MappingService.validateMapping`) -/

/-- One entry of a column→path mapping. -/
structure MappingEntry where
  sourceColumn : String
  targetPath : String
deriving DecidableEq

/-- The individual messages pushed into the `errors` array of
`validateMapping`, by kind and payload. -/
inductive VErr where
  | srcRequired (row : Nat)
  | pathRequired (row : Nat)
  | badSegment (row : Nat) (path : String) (seg : String)
  | duplicate (path : String)
  | collision (p q : String)
deriving DecidableEq

/-- The errors contributed by one entry of the per-entry loop:
a missing source column, then either a missing path (with `continue`)
or the first invalid segment (the inner loop breaks at the first). -/
def entryErr (row : Nat) (e : MappingEntry) : List VErr :=
  (if e.sourceColumn = "" then [.srcRequired row] else []) ++
  (if normPath e.targetPath = "" then [.pathRequired row]
   else
     match (splitSegs (normPath e.targetPath)).find? (fun seg => !isIdentB seg) with
     | some seg => [.badSegment row e.targetPath seg]
     | none => [])

/-- The whole per-entry loop; `row` is the 1-based row number used in
the messages. -/
def entryErrors : Nat → List MappingEntry → List VErr
  | _, [] => []
  | row, e :: es => entryErr row e ++ entryErrors (row + 1) es

/-- The duplicate-path loop, threading the `seen` set. -/
def dupGo : List String → List String → List VErr
  | _, [] => []
  | seen, p :: ps =>
    if p = "" then dupGo seen ps
    else if p ∈ seen then .duplicate p :: dupGo seen ps
    else dupGo (p :: seen) ps

def dupErrors (ps : List String) : List VErr := dupGo [] ps

/-- The contents of the `seen` set in insertion order: the distinct
non-empty normalized paths. -/
def dpGo : List String → List String → List String
  | _, [] => []
  | seen, p :: ps =>
    if p = "" ∨ p ∈ seen then dpGo seen ps else p :: dpGo (p :: seen) ps

def distinctPaths (ps : List String) : List String := dpGo [] ps

/-- The adjacent-pair collision scan over the sorted distinct paths. -/
def adjErrors : List String → List VErr
  | a :: b :: t => (if dotPrefixB a b then [.collision a b] else []) ++ adjErrors (b :: t)
  | _ => []

/-- The trimmed target paths, in entry order
(`mapping.map((m) => m.targetPath.trim())`). -/
def normPaths (m : List MappingEntry) : List String :=
  m.map fun e => normPath e.targetPath

/-- All violations collected by `validateMapping`, in push order. -/
def validateErrors (m : List MappingEntry) : List VErr :=
  entryErrors 1 m ++ dupErrors (normPaths m) ++
    adjErrors (sortPaths (distinctPaths (normPaths m)))

/-- `validateMapping` succeeds, or throws `ValidationError("Invalid mapping",
errors)` when at least one violation was collected. -/
def validateMapping (m : List MappingEntry) : Except (List VErr) Unit :=
  if validateErrors m = [] then .ok () else .error (validateErrors m)

/-- The naive quadratic dot-prefix check over all pairs of paths. -/
def naiveB (ps : List String) : Bool :=
  ps.any fun p => ps.any fun q => dotPrefixB p q

/-! ### Soundness and completeness of the adjacent-pair scan -/

theorem adjErrors_sound (l : List String) (h : adjErrors l ≠ []) :
    ∃ p ∈ l, ∃ q ∈ l, dotPrefixB p q = true := by
  match l with
  | [] => simp [adjErrors] at h
  | [a] => simp [adjErrors] at h
  | a :: b :: t =>
    by_cases hab : dotPrefixB a b
    · exact ⟨a, List.mem_cons_self _ _, b,
        List.mem_cons_of_mem _ (List.mem_cons_self _ _), hab⟩
    · rw [adjErrors, if_neg hab, List.nil_append] at h
      obtain ⟨p, hp, q, hq, hpq⟩ := adjErrors_sound (b :: t) h
      exact ⟨p, List.mem_cons_of_mem _ hp, q, List.mem_cons_of_mem _ hq, hpq⟩

theorem adjErrors_ne_nil_cons (a b : String) (t : List String)
    (h : adjErrors (b :: t) ≠ []) : adjErrors (a :: b :: t) ≠ [] := by
  rw [adjErrors]
  intro he
  rcases List.append_eq_nil.mp he with ⟨_, h2⟩
  exact h h2

theorem adjErrors_complete (l : List String) (hs : List.Sorted pathLe l)
    (hn : l.Nodup) (hv : ∀ s ∈ l, ∀ c ∈ s.data, ('.' : Char) ≤ c)
    (p q : String) (hp : p ∈ l) (hq : q ∈ l) (hpq : dotPrefixB p q = true) :
    adjErrors l ≠ [] := by
  match l with
  | [] => cases hp
  | [a] =>
    rw [List.mem_singleton] at hp hq
    exact absurd (hp.trans hq.symm) (ne_of_dotPrefixB hpq)
  | a :: b :: t =>
    have hsorted2 : List.Sorted pathLe (b :: t) := (List.sorted_cons.mp hs).2
    have hab : pathLe a b := (List.sorted_cons.mp hs).1 b (List.mem_cons_self _ _)
    rcases List.mem_cons.mp hp with rfl | hp2
    · -- p is the head; q is strictly below it, hence in b :: t
      have hq2 : q ∈ b :: t := by
        rcases List.mem_cons.mp hq with rfl | hq2
        · exact absurd rfl (ne_of_dotPrefixB hpq)
        · exact hq2
      have hpq2 : pathLe p q := by
        rw [pathLe]
        exact lexLe_of_dotPrefixB hpq
      have hbq : lexLe b.data q.data = true := by
        rcases List.mem_cons.mp hq2 with rfl | hq3
        · exact lexLe_refl _
        · exact (List.sorted_cons.mp hsorted2).1 q hq3
      have hne : p ≠ b := by
        intro he
        subst he
        exact (List.nodup_cons.mp hn).1 (List.mem_cons_self _ _)
      have hnedata : p.data ≠ b.data := by
        intro he
        exact hne (by cases p; cases b; exact congrArg String.mk he)
      have hpb : dotPrefixB p b = true :=
        dot_prefix_squeeze p.data b.data q.data
          (hv b (List.mem_cons_of_mem _ (List.mem_cons_self _ _)))
          hab hnedata hbq hpq
      rw [adjErrors, if_pos hpb]
      simp
    · -- p is in the tail, hence (q being above p) so is q
      have hq2 : q ∈ b :: t := by
        rcases List.mem_cons.mp hq with rfl | hq3
        · exfalso
          have hqp : pathLe q p := (List.sorted_cons.mp hs).1 p hp2
          have hpq2 : lexLe p.data q.data = true := lexLe_of_dotPrefixB hpq
          have : p = q := pathLe_antisymm hpq2 hqp
          exact ne_of_dotPrefixB hpq this
        · exact hq3
      exact adjErrors_ne_nil_cons a b t
        (adjErrors_complete (b :: t) hsorted2 (List.nodup_cons.mp hn).2
          (fun s hsm => hv s (List.mem_cons_of_mem _ hsm)) p q hp2 hq2 hpq)

theorem mem_dpGo (ps : List String) :
    ∀ (seen : List String) (x : String),
      x ∈ dpGo seen ps ↔ x ∈ ps ∧ x ∉ seen ∧ x ≠ "" := by
  induction ps with
  | nil => intro seen x; simp [dpGo]
  | cons p ps ih =>
    intro seen x
    by_cases hskip : p = "" ∨ p ∈ seen
    · rw [dpGo, if_pos hskip, ih seen x]
      constructor
      · rintro ⟨h1, h2, h3⟩
        exact ⟨List.mem_cons_of_mem _ h1, h2, h3⟩
      · rintro ⟨h1, h2, h3⟩
        rcases List.mem_cons.mp h1 with rfl | h4
        · rcases hskip with h5 | h5
          · exact absurd h5 h3
          · exact absurd h5 h2
        · exact ⟨h4, h2, h3⟩
    · push_neg at hskip
      rw [dpGo, if_neg (by simp [hskip.1, hskip.2])]
      constructor
      · intro hx
        rcases List.mem_cons.mp hx with rfl | hx2
        · exact ⟨List.mem_cons_self _ _, hskip.2, hskip.1⟩
        · obtain ⟨h1, h2, h3⟩ := (ih (p :: seen) x).mp hx2
          exact ⟨List.mem_cons_of_mem _ h1,
            fun hs => h2 (List.mem_cons_of_mem _ hs), h3⟩
      · rintro ⟨h1, h2, h3⟩
        by_cases hxp : x = p
        · subst hxp; exact List.mem_cons_self _ _
        · rcases List.mem_cons.mp h1 with rfl | h4
          · exact absurd rfl hxp
          · exact List.mem_cons_of_mem _ ((ih (p :: seen) x).mpr
              ⟨h4, by simp [hxp, h2], h3⟩)

theorem nodup_dpGo (ps : List String) : ∀ seen, (dpGo seen ps).Nodup := by
  induction ps with
  | nil => intro seen; simp [dpGo]
  | cons p ps ih =>
    intro seen
    by_cases hskip : p = "" ∨ p ∈ seen
    · rw [dpGo, if_pos hskip]; exact ih seen
    · push_neg at hskip
      rw [dpGo, if_neg (by simp [hskip.1, hskip.2])]
      refine List.nodup_cons.mpr ⟨?_, ih (p :: seen)⟩
      intro hmem
      exact ((mem_dpGo ps (p :: seen) p).mp hmem).2.1 (List.mem_cons_self _ _)

theorem mem_distinctPaths (ps : List String) (x : String) :
    x ∈ distinctPaths ps ↔ x ∈ ps ∧ x ≠ "" := by
  rw [distinctPaths, mem_dpGo]
  simp

theorem nodup_distinctPaths (ps : List String) : (distinctPaths ps).Nodup :=
  nodup_dpGo ps []

theorem mem_sortPaths (ps : List String) (x : String) :
    x ∈ sortPaths ps ↔ x ∈ ps :=
  List.mem_insertionSort pathLe

theorem sorted_sortPaths (ps : List String) : List.Sorted pathLe (sortPaths ps) :=
  List.sorted_insertionSort pathLe ps

theorem nodup_sortPaths (ps : List String) (h : ps.Nodup) : (sortPaths ps).Nodup :=
  (List.perm_insertionSort pathLe ps).nodup_iff.mpr h

/-- The collision scan of `validateMapping`, abstracted over the distinct
normalized path list it receives. -/
theorem scan_equiv_core (ps : List String) (hn : ps.Nodup)
    (hv : ∀ p ∈ ps, validPathB p = true) :
    (adjErrors (sortPaths ps) ≠ [] ↔ naiveB ps = true) := by
  constructor
  · intro h
    obtain ⟨p, hp, q, hq, hpq⟩ := adjErrors_sound _ h
    rw [mem_sortPaths] at hp hq
    rw [naiveB, List.any_eq_true]
    exact ⟨p, hp, List.any_eq_true.mpr ⟨q, hq, hpq⟩⟩
  · intro h
    rw [naiveB, List.any_eq_true] at h
    obtain ⟨p, hp, h2⟩ := h
    obtain ⟨q, hq, hpq⟩ := List.any_eq_true.mp h2
    exact adjErrors_complete (sortPaths ps) (sorted_sortPaths ps)
      (nodup_sortPaths ps hn)
      (fun s hs => validPathB_char_bound (hv s ((mem_sortPaths ps s).mp hs)))
      p q ((mem_sortPaths ps p).mpr hp) ((mem_sortPaths ps q).mpr hq) hpq

/-! ### The spec's invariant set (§3), written from the spec's words -/

/-- Invariant (1): every entry has a non-empty source column and a
non-empty (normalized) target path. -/
def specInv1 (m : List MappingEntry) : Prop :=
  ∀ e ∈ m, e.sourceColumn ≠ "" ∧ normPath e.targetPath ≠ ""

/-- Invariant (2): all segments in every path are syntactically valid
identifiers. -/
def specInv2 (m : List MappingEntry) : Prop :=
  ∀ e ∈ m, validPathB (normPath e.targetPath) = true

/-- Invariant (3): no two entries share an identical normalized target
path. -/
def specInv3 (m : List MappingEntry) : Prop :=
  (normPaths m).Nodup

/-- Invariant (4): no target path is a strict dot-prefix of another
target path. -/
def specInv4 (m : List MappingEntry) : Prop :=
  ∀ p ∈ normPaths m, ∀ q ∈ normPaths m, dotPrefixB p q = false

theorem entryErr_eq_nil_iff (row : Nat) (e : MappingEntry) :
    entryErr row e = [] ↔
      e.sourceColumn ≠ "" ∧ normPath e.targetPath ≠ "" ∧
        validPathB (normPath e.targetPath) = true := by
  rw [entryErr, List.append_eq_nil]
  constructor
  · rintro ⟨h1, h2⟩
    have hsrc : e.sourceColumn ≠ "" := by
      intro h; rw [if_pos h] at h1; cases h1
    have hpath : normPath e.targetPath ≠ "" := by
      intro h; rw [if_pos h] at h2; cases h2
    rw [if_neg hpath] at h2
    refine ⟨hsrc, hpath, ?_⟩
    rw [validPathB, List.all_eq_true]
    intro seg hseg
    cases hf : (splitSegs (normPath e.targetPath)).find? (fun s => !isIdentB s) with
    | none =>
      have := List.find?_eq_none.mp hf seg hseg
      simpa using this
    | some s => rw [hf] at h2; cases h2
  · rintro ⟨h1, h2, h3⟩
    rw [if_neg h1, if_neg h2]
    refine ⟨rfl, ?_⟩
    cases hf : (splitSegs (normPath e.targetPath)).find? (fun s => !isIdentB s) with
    | none => rfl
    | some s =>
      exfalso
      have hmem := List.mem_of_find?_eq_some hf
      have hprop := List.find?_some hf
      rw [validPathB, List.all_eq_true] at h3
      have := h3 s hmem
      simp [this] at hprop

theorem entryErrors_eq_nil_iff (m : List MappingEntry) :
    ∀ row, entryErrors row m = [] ↔
      ∀ e ∈ m, e.sourceColumn ≠ "" ∧ normPath e.targetPath ≠ "" ∧
        validPathB (normPath e.targetPath) = true := by
  induction m with
  | nil => intro row; simp [entryErrors]
  | cons e es ih =>
    intro row
    rw [entryErrors, List.append_eq_nil, entryErr_eq_nil_iff, ih (row + 1)]
    constructor
    · rintro ⟨h1, h2⟩ e2 he2
      rcases List.mem_cons.mp he2 with rfl | he3
      · exact h1
      · exact h2 e2 he3
    · intro h
      exact ⟨h e (List.mem_cons_self _ _),
        fun e2 he2 => h e2 (List.mem_cons_of_mem _ he2)⟩

theorem dupGo_eq_nil_iff (ps : List String) :
    ∀ seen, dupGo seen ps = [] ↔
      (ps.filter (fun x => x ≠ "")).Nodup ∧
        ∀ p ∈ ps, p ≠ "" → p ∉ seen := by
  induction ps with
  | nil => intro seen; simp [dupGo]
  | cons p ps ih =>
    intro seen
    by_cases hp : p = ""
    · rw [dupGo, if_pos hp]
      rw [ih seen]
      subst hp
      constructor
      · rintro ⟨h1, h2⟩
        refine ⟨by simpa using h1, ?_⟩
        intro q hq hqne
        rcases List.mem_cons.mp hq with rfl | hq2
        · exact absurd rfl hqne
        · exact h2 q hq2 hqne
      · rintro ⟨h1, h2⟩
        exact ⟨by simpa using h1, fun q hq hqne => h2 q (List.mem_cons_of_mem _ hq) hqne⟩
    · rw [dupGo, if_neg hp]
      by_cases hseen : p ∈ seen
      · rw [if_pos hseen]
        constructor
        · intro h; cases h
        · rintro ⟨_, h2⟩
          exact absurd hseen (h2 p (List.mem_cons_self _ _) hp)
      · rw [if_neg hseen, ih (p :: seen)]
        have hfil : (p :: ps).filter (fun x => x ≠ "") =
            p :: ps.filter (fun x => x ≠ "") := by
          rw [List.filter_cons, if_pos (by simpa using hp)]
        rw [hfil, List.nodup_cons]
        constructor
        · rintro ⟨h1, h2⟩
          refine ⟨⟨?_, h1⟩, ?_⟩
          · intro hmem
            have hpps : p ∈ ps := (List.mem_filter.mp hmem).1
            exact (h2 p hpps hp) (List.mem_cons_self _ _)
          · intro q hq hqne
            rcases List.mem_cons.mp hq with rfl | hq2
            · exact hseen
            · intro hqs
              exact (h2 q hq2 hqne) (List.mem_cons_of_mem _ hqs)
        · rintro ⟨⟨h1, h2⟩, h3⟩
          refine ⟨h2, ?_⟩
          intro q hq hqne
          intro hqps
          rcases List.mem_cons.mp hqps with rfl | hq2
          · exact h1 (List.mem_filter.mpr ⟨hq, by simpa using hqne⟩)
          · exact (h3 q (List.mem_cons_of_mem _ hq) hqne) hq2

theorem dupErrors_eq_nil_iff (ps : List String) :
    dupErrors ps = [] ↔ (ps.filter (fun x => x ≠ "")).Nodup := by
  rw [dupErrors, dupGo_eq_nil_iff]
  simp

theorem mem_normPaths (m : List MappingEntry) (p : String) :
    p ∈ normPaths m ↔ ∃ e ∈ m, normPath e.targetPath = p := by
  simp [normPaths]

/-- Acceptance characterization: `validateMapping` collects no errors
exactly when the four invariants of §3 all hold. -/
theorem validateErrors_eq_nil_iff (m : List MappingEntry) :
    validateErrors m = [] ↔
      specInv1 m ∧ specInv2 m ∧ specInv3 m ∧ specInv4 m := by
  rw [validateErrors, List.append_eq_nil, List.append_eq_nil]
  constructor
  · rintro ⟨⟨h1, h2⟩, h3⟩
    have hinv12 := (entryErrors_eq_nil_iff m 1).mp h1
    have hi1 : specInv1 m := fun e he => ⟨(hinv12 e he).1, (hinv12 e he).2.1⟩
    have hi2 : specInv2 m := fun e he => (hinv12 e he).2.2
    have hne : ∀ p ∈ normPaths m, p ≠ "" := by
      intro p hp
      obtain ⟨e, he, rfl⟩ := (mem_normPaths m p).mp hp
      exact (hi1 e he).2
    have hfil : (normPaths m).filter (fun x => x ≠ "") = normPaths m :=
      List.filter_eq_self.mpr fun p hp => by simpa using hne p hp
    have hi3 : specInv3 m := by
      have := (dupErrors_eq_nil_iff (normPaths m)).mp h2
      rwa [hfil] at this
    refine ⟨hi1, hi2, hi3, ?_⟩
    intro p hp q hq
    by_contra hcol
    rw [Bool.not_eq_false] at hcol
    have hvalid : ∀ s ∈ normPaths m, validPathB s = true := by
      intro s hs
      obtain ⟨e, he, rfl⟩ := (mem_normPaths m s).mp hs
      exact hi2 e he
    have hpd : p ∈ distinctPaths (normPaths m) :=
      (mem_distinctPaths _ _).mpr ⟨hp, hne p hp⟩
    have hqd : q ∈ distinctPaths (normPaths m) :=
      (mem_distinctPaths _ _).mpr ⟨hq, hne q hq⟩
    exact adjErrors_complete _ (sorted_sortPaths _)
      (nodup_sortPaths _ (nodup_distinctPaths _))
      (fun s hs => validPathB_char_bound
        (hvalid s ((mem_distinctPaths _ _).mp ((mem_sortPaths _ _).mp hs)).1))
      p q ((mem_sortPaths _ _).mpr hpd) ((mem_sortPaths _ _).mpr hqd) hcol h3
  · rintro ⟨hi1, hi2, hi3, hi4⟩
    refine ⟨⟨(entryErrors_eq_nil_iff m 1).mpr
      (fun e he => ⟨(hi1 e he).1, (hi1 e he).2, hi2 e he⟩), ?_⟩, ?_⟩
    · rw [dupErrors_eq_nil_iff]
      have hfil : (normPaths m).filter (fun x => x ≠ "") = normPaths m :=
        List.filter_eq_self.mpr fun p hp => by
          have : p ≠ "" := by
            obtain ⟨e, he, rfl⟩ := (mem_normPaths m p).mp hp
            exact (hi1 e he).2
          simpa using this
      rwa [hfil]
    · by_contra hne2
      obtain ⟨p, hp, q, hq, hpq⟩ := adjErrors_sound _ hne2
      rw [mem_sortPaths, mem_distinctPaths] at hp hq
      have := hi4 p hp.1 q hq.1
      rw [this] at hpq
      cases hpq

/-! ### Completeness: every per-entry violation and every duplicate is
reported, and the collision invariant is reported when violated. -/

theorem mem_entryErrors_src (m : List MappingEntry) :
    ∀ (row i : Nat) (h : i < m.length),
      (m.get ⟨i, h⟩).sourceColumn = "" →
      VErr.srcRequired (row + i) ∈ entryErrors row m := by
  induction m with
  | nil => intro row i h; simp at h
  | cons e es ih =>
    intro row i h hsrc
    cases i with
    | zero =>
      have h0 : (e :: es).get ⟨0, h⟩ = e := rfl
      rw [h0] at hsrc
      rw [entryErrors]
      refine List.mem_append_left _ ?_
      rw [entryErr, Nat.add_zero]
      exact List.mem_append_left _ (by rw [if_pos hsrc]; exact List.mem_cons_self _ _)
    | succ j =>
      rw [entryErrors]
      refine List.mem_append_right _ ?_
      have := ih (row + 1) j (Nat.lt_of_succ_lt_succ h) hsrc
      rwa [show row + 1 + j = row + (j + 1) by omega] at this

theorem mem_entryErrors_path (m : List MappingEntry) :
    ∀ (row i : Nat) (h : i < m.length),
      normPath (m.get ⟨i, h⟩).targetPath = "" →
      VErr.pathRequired (row + i) ∈ entryErrors row m := by
  induction m with
  | nil => intro row i h; simp at h
  | cons e es ih =>
    intro row i h hpath
    cases i with
    | zero =>
      have h0 : (e :: es).get ⟨0, h⟩ = e := rfl
      rw [h0] at hpath
      rw [entryErrors]
      refine List.mem_append_left _ ?_
      rw [entryErr, Nat.add_zero]
      refine List.mem_append_right _ ?_
      rw [if_pos hpath]
      exact List.mem_cons_self _ _
    | succ j =>
      rw [entryErrors]
      refine List.mem_append_right _ ?_
      have := ih (row + 1) j (Nat.lt_of_succ_lt_succ h) hpath
      rwa [show row + 1 + j = row + (j + 1) by omega] at this

theorem mem_entryErrors_seg (m : List MappingEntry) :
    ∀ (row i : Nat) (h : i < m.length),
      normPath (m.get ⟨i, h⟩).targetPath ≠ "" →
      validPathB (normPath (m.get ⟨i, h⟩).targetPath) = false →
      ∃ seg, VErr.badSegment (row + i) (m.get ⟨i, h⟩).targetPath seg ∈
        entryErrors row m := by
  induction m with
  | nil => intro row i h; simp at h
  | cons e es ih =>
    intro row i h hpath hbad
    cases i with
    | zero =>
      have h0 : (e :: es).get ⟨0, h⟩ = e := rfl
      rw [h0] at hpath hbad ⊢
      have hfind : ∃ seg,
          (splitSegs (normPath e.targetPath)).find? (fun s => !isIdentB s) =
            some seg := by
        have hex : ∃ s ∈ splitSegs (normPath e.targetPath), isIdentB s = false := by
          by_contra hno
          push_neg at hno
          have hall : (splitSegs (normPath e.targetPath)).all isIdentB = true := by
            rw [List.all_eq_true]
            intro s hs
            rcases Bool.eq_false_or_eq_true (isIdentB s) with htr | hfa
            · exact htr
            · exact absurd hfa (hno s hs)
          rw [validPathB, hall] at hbad
          cases hbad
        obtain ⟨s, hs, hsf⟩ := hex
        cases hf : (splitSegs (normPath e.targetPath)).find? (fun x => !isIdentB x) with
        | some s2 => exact ⟨s2, rfl⟩
        | none =>
          exfalso
          have := List.find?_eq_none.mp hf s hs
          simp [hsf] at this
      obtain ⟨seg, hseg⟩ := hfind
      refine ⟨seg, ?_⟩
      rw [entryErrors]
      refine List.mem_append_left _ ?_
      rw [entryErr, Nat.add_zero]
      refine List.mem_append_right _ ?_
      rw [if_neg hpath, hseg]
      exact List.mem_cons_self _ _
    | succ j =>
      obtain ⟨seg, hseg⟩ := ih (row + 1) j (Nat.lt_of_succ_lt_succ h) hpath hbad
      refine ⟨seg, ?_⟩
      rw [entryErrors]
      refine List.mem_append_right _ ?_
      rwa [show row + 1 + j = row + (j + 1) by omega] at hseg

theorem mem_dupGo_of_count (ps : List String) :
    ∀ (seen : List String) (p : String), p ≠ "" →
      ((p ∈ seen ∧ p ∈ ps) ∨ 2 ≤ ps.count p) →
      VErr.duplicate p ∈ dupGo seen ps := by
  induction ps with
  | nil =>
    intro seen p hne hcase
    rcases hcase with ⟨_, h⟩ | h
    · cases h
    · simp at h
  | cons q ps ih =>
    intro seen p hne hcase
    by_cases hq : q = ""
    · rw [dupGo, if_pos hq]
      refine ih seen p hne ?_
      rcases hcase with ⟨h1, h2⟩ | h2
      · rcases List.mem_cons.mp h2 with rfl | h3
        · exact absurd hq hne
        · exact Or.inl ⟨h1, h3⟩
      · have hqp : ¬ q = p := fun he => hne (he ▸ hq)
        rw [List.count_cons] at h2
        simp only [beq_iff_eq, if_neg hqp, Nat.add_zero] at h2
        exact Or.inr h2
    · rw [dupGo, if_neg hq]
      by_cases hseen : q ∈ seen
      · rw [if_pos hseen]
        by_cases hpq : p = q
        · subst hpq
          exact List.mem_cons_self _ _
        · refine List.mem_cons_of_mem _ (ih seen p hne ?_)
          rcases hcase with ⟨h1, h2⟩ | h2
          · rcases List.mem_cons.mp h2 with rfl | h3
            · exact absurd rfl hpq
            · exact Or.inl ⟨h1, h3⟩
          · have hqp2 : ¬ q = p := fun he => hpq he.symm
            rw [List.count_cons] at h2
            simp only [beq_iff_eq, if_neg hqp2, Nat.add_zero] at h2
            exact Or.inr h2
      · rw [if_neg hseen]
        by_cases hpq : p = q
        · subst hpq
          refine ih (p :: seen) p hne ?_
          rcases hcase with ⟨h1, _⟩ | h2
          · exact absurd h1 hseen
          · rw [List.count_cons] at h2
            have h2b : 2 ≤ ps.count p + 1 := by simpa using h2
            have hcount : 0 < ps.count p := by omega
            exact Or.inl ⟨List.mem_cons_self _ _, List.count_pos_iff.mp hcount⟩
        · refine ih (q :: seen) p hne ?_
          rcases hcase with ⟨h1, h2⟩ | h2
          · rcases List.mem_cons.mp h2 with rfl | h3
            · exact absurd rfl hpq
            · exact Or.inl ⟨List.mem_cons_of_mem _ h1, h3⟩
          · have hqp2 : ¬ q = p := fun he => hpq he.symm
            rw [List.count_cons] at h2
            simp only [beq_iff_eq, if_neg hqp2, Nat.add_zero] at h2
            exact Or.inr h2

theorem adjErrors_shape (l : List String) :
    ∀ x ∈ adjErrors l, ∃ a b, x = VErr.collision a b := by
  match l with
  | [] => intro x hx; cases hx
  | [a] => intro x hx; cases hx
  | a :: b :: t =>
    intro x hx
    rw [adjErrors] at hx
    rcases List.mem_append.mp hx with h1 | h2
    · by_cases hab : dotPrefixB a b
      · rw [if_pos hab] at h1
        rcases List.mem_cons.mp h1 with rfl | h3
        · exact ⟨a, b, rfl⟩
        · cases h3
      · rw [if_neg hab] at h1; cases h1
    · exact adjErrors_shape (b :: t) x h2

theorem validateMapping_ok_iff (m : List MappingEntry) :
    validateMapping m = .ok () ↔ validateErrors m = [] := by
  rw [validateMapping]
  by_cases h : validateErrors m = []
  · simp [h]
  · simp [h]

theorem validPathB_empty : validPathB "" = false := by decide

/-- C2 (corrected), counterexample to the claim as stated: for the
distinct normalized path set `["a", "a!x", "a.b"]` the naive pairwise
check finds the strict dot-prefix pair `("a", "a.b")`, yet the sorted
adjacent-pair scan reports no collision (`"a!x"` sorts between them and
`'!' < '.'` breaks adjacency); moreover even on the syntactically valid
set `["a", "a.a", "a.b"]` the prefix-related pair `("a", "a.b")` is not
adjacent after sorting. -/
theorem scan_misses_collision_cex :
    (["a", "a!x", "a.b"] : List String).Nodup ∧
      adjErrors (sortPaths ["a", "a!x", "a.b"]) = [] ∧
      naiveB ["a", "a!x", "a.b"] = true ∧
      dotPrefixB "a" "a.b" = true ∧
      sortPaths ["a", "a.a", "a.b"] = ["a", "a.a", "a.b"] := by
  decide

/-- C2 (amended): for every finite set of distinct normalized and
syntactically valid target paths, the sorted adjacent-pair scan reports
at least one collision iff the naive pairwise check finds a strict
dot-prefix pair.  (A prefix-related pair need not itself be adjacent
after sorting, but some dot-extension of the shorter path is.) -/
theorem scan_reports_iff_naive (ps : List String) (hn : ps.Nodup)
    (hv : ∀ p ∈ ps, validPathB p = true) :
    adjErrors (sortPaths ps) ≠ [] ↔ naiveB ps = true :=
  scan_equiv_core ps hn hv

theorem scan_reports_iff_naive_witness :
    adjErrors (sortPaths ["a.b", "a"]) ≠ [] :=
  (scan_reports_iff_naive ["a.b", "a"] (by decide) (by decide)).mpr (by decide)

/-- C4 (corrected), counterexample to "an entry for every violation": in
the mapping `[(c1,"a"), (c2,"a.a"), (c3,"a.b")]` the path `"a"` is a
strict dot-prefix of both `"a.a"` and `"a.b"`, yet the details contain a
single collision entry; no entry reports the pair `("a", "a.b")`. -/
theorem validate_one_entry_for_two_collisions_cex :
    dotPrefixB "a" "a.a" = true ∧ dotPrefixB "a" "a.b" = true ∧
      validateErrors [⟨"c1", "a"⟩, ⟨"c2", "a.a"⟩, ⟨"c3", "a.b"⟩] =
        [VErr.collision "a" "a.a"] ∧
      VErr.collision "a" "a.b" ∉
        validateErrors [⟨"c1", "a"⟩, ⟨"c2", "a.a"⟩, ⟨"c3", "a.b"⟩] := by
  decide

/-- No duplicate entry is produced by the per-entry loop. -/
theorem dup_not_mem_entryErrors (p : String) :
    ∀ (m : List MappingEntry) (row : Nat),
      VErr.duplicate p ∉ entryErrors row m := by
  intro m
  induction m with
  | nil => intro row h; cases h
  | cons e es ih =>
    intro row h
    rw [entryErrors] at h
    rcases List.mem_append.mp h with h1 | h2
    · rw [entryErr] at h1
      rcases List.mem_append.mp h1 with h3 | h4
      · by_cases hs : e.sourceColumn = ""
        · rw [if_pos hs] at h3
          rcases List.mem_cons.mp h3 with h5 | h5
          · cases h5
          · cases h5
        · rw [if_neg hs] at h3; cases h3
      · by_cases hp2 : normPath e.targetPath = ""
        · rw [if_pos hp2] at h4
          rcases List.mem_cons.mp h4 with h5 | h5
          · cases h5
          · cases h5
        · rw [if_neg hp2] at h4
          cases hf : (splitSegs (normPath e.targetPath)).find?
              (fun seg => !isIdentB seg) with
          | some sg =>
            rw [hf] at h4
            rcases List.mem_cons.mp h4 with h5 | h5
            · cases h5
            · cases h5
          | none => rw [hf] at h4; cases h4
    · exact ih (row + 1) h2

/-- No duplicate entry is produced by the collision scan. -/
theorem dup_not_mem_adjErrors (l : List String) (p : String) :
    VErr.duplicate p ∉ adjErrors l := by
  intro h
  obtain ⟨a, b, heq⟩ := adjErrors_shape l _ h
  cases heq

/-- The duplicate loop emits exactly one entry per occurrence of a path
beyond the one that first enters the `seen` set. -/
theorem dupGo_count (p : String) (hp : p ≠ "") :
    ∀ (ps seen : List String),
      (dupGo seen ps).count (VErr.duplicate p) =
        if p ∈ seen then ps.count p else ps.count p - 1 := by
  intro ps
  induction ps with
  | nil =>
    intro seen
    by_cases hmem : p ∈ seen <;> simp [dupGo, hmem]
  | cons q ps ih =>
    intro seen
    by_cases hq : q = ""
    · rw [dupGo, if_pos hq, ih seen]
      have hqp : ¬ (q == p) = true := by
        simp only [beq_iff_eq]
        intro he
        exact hp (he ▸ hq)
      rw [List.count_cons, if_neg hqp, Nat.add_zero]
    · rw [dupGo, if_neg hq]
      by_cases hseen : q ∈ seen
      · rw [if_pos hseen]
        by_cases hpq : p = q
        · subst hpq
          rw [if_pos hseen, List.count_cons, List.count_cons, ih seen,
            if_pos hseen]
          simp
        · have hne1 : ¬ ((VErr.duplicate q == VErr.duplicate p) = true) := by
            simp only [beq_iff_eq, VErr.duplicate.injEq]
            exact fun he => hpq he.symm
          have hne2 : ¬ ((q == p) = true) := by
            simp only [beq_iff_eq]
            exact fun he => hpq he.symm
          rw [List.count_cons, List.count_cons, ih seen,
            if_neg hne1, if_neg hne2, Nat.add_zero, Nat.add_zero]
      · rw [if_neg hseen]
        by_cases hpq : p = q
        · subst hpq
          rw [ih (p :: seen), if_pos (List.mem_cons_self _ _),
            if_neg hseen, List.count_cons, if_pos (by simp)]
          omega
        · have hne2 : ¬ ((q == p) = true) := by
            simp only [beq_iff_eq]
            exact fun he => hpq he.symm
          rw [ih (q :: seen), List.count_cons, if_neg hne2, Nat.add_zero]
          by_cases hps : p ∈ seen
          · rw [if_pos (List.mem_cons_of_mem _ hps), if_pos hps]
          · rw [if_neg (by simp [hpq, hps]), if_neg hps]

/-- C4 (amended): `validateMapping` accepts exactly when the four
invariants hold, and on rejection the details contain an entry for every
per-entry violation (missing source column, missing path, first invalid
segment — one entry per offending row), exactly one duplicate entry per
occurrence of a normalized path beyond its first (regardless of source
columns); any violation of the dot-prefix invariant rejects the mapping,
and when the paths are all syntactically valid the details then contain
at least one collision entry (an invalid path may break the adjacency
the scan relies on, the rejection then surfacing as that path's segment
entry); the checks do not stop at the first failure. -/
theorem validate_accepts_iff_and_reports_all (m : List MappingEntry) :
    (validateMapping m = .ok () ↔
      specInv1 m ∧ specInv2 m ∧ specInv3 m ∧ specInv4 m) ∧
    (∀ (i : Nat) (h : i < m.length), (m.get ⟨i, h⟩).sourceColumn = "" →
      VErr.srcRequired (1 + i) ∈ validateErrors m) ∧
    (∀ (i : Nat) (h : i < m.length), normPath (m.get ⟨i, h⟩).targetPath = "" →
      VErr.pathRequired (1 + i) ∈ validateErrors m) ∧
    (∀ (i : Nat) (h : i < m.length), normPath (m.get ⟨i, h⟩).targetPath ≠ "" →
      validPathB (normPath (m.get ⟨i, h⟩).targetPath) = false →
      ∃ seg, VErr.badSegment (1 + i) (m.get ⟨i, h⟩).targetPath seg ∈
        validateErrors m) ∧
    (∀ p, p ≠ "" →
      (validateErrors m).count (VErr.duplicate p) =
        (normPaths m).count p - 1) ∧
    ((∃ p ∈ normPaths m, ∃ q ∈ normPaths m, dotPrefixB p q = true) →
      validateErrors m ≠ []) ∧
    (specInv2 m →
      (∃ p ∈ normPaths m, ∃ q ∈ normPaths m, dotPrefixB p q = true) →
      ∃ a b, VErr.collision a b ∈ validateErrors m) := by
  refine ⟨(validateMapping_ok_iff m).trans (validateErrors_eq_nil_iff m),
    ?_, ?_, ?_, ?_, ?_, ?_⟩
  · intro i h hsrc
    exact List.mem_append_left _ (List.mem_append_left _
      (mem_entryErrors_src m 1 i h hsrc))
  · intro i h hpath
    exact List.mem_append_left _ (List.mem_append_left _
      (mem_entryErrors_path m 1 i h hpath))
  · intro i h hpath hbad
    obtain ⟨seg, hseg⟩ := mem_entryErrors_seg m 1 i h hpath hbad
    exact ⟨seg, List.mem_append_left _ (List.mem_append_left _ hseg)⟩
  · intro p hp
    rw [validateErrors, List.count_append, List.count_append,
      List.count_eq_zero.mpr (dup_not_mem_entryErrors p m 1),
      List.count_eq_zero.mpr (dup_not_mem_adjErrors _ p),
      Nat.zero_add, Nat.add_zero, dupErrors, dupGo_count p hp (normPaths m) []]
    simp
  · rintro ⟨p, hp, q, hq, hpq⟩ h0
    have hi4 := ((validateErrors_eq_nil_iff m).mp h0).2.2.2
    rw [hi4 p hp q hq] at hpq
    cases hpq
  · intro hi2 ⟨p, hp, q, hq, hpq⟩
    have hvalid : ∀ s ∈ normPaths m, validPathB s = true := by
      intro s hs
      obtain ⟨e, he, rfl⟩ := (mem_normPaths m s).mp hs
      exact hi2 e he
    have hne : ∀ s ∈ normPaths m, s ≠ "" := by
      intro s hs he
      have := hvalid s hs
      rw [he, validPathB_empty] at this
      cases this
    have hadj : adjErrors (sortPaths (distinctPaths (normPaths m))) ≠ [] :=
      adjErrors_complete _ (sorted_sortPaths _)
        (nodup_sortPaths _ (nodup_distinctPaths _))
        (fun s hs => validPathB_char_bound
          (hvalid s ((mem_distinctPaths _ _).mp ((mem_sortPaths _ _).mp hs)).1))
        p q
        ((mem_sortPaths _ _).mpr ((mem_distinctPaths _ _).mpr ⟨hp, hne p hp⟩))
        ((mem_sortPaths _ _).mpr ((mem_distinctPaths _ _).mpr ⟨hq, hne q hq⟩))
        hpq
    obtain ⟨x, hx⟩ := List.exists_mem_of_ne_nil _ hadj
    obtain ⟨a, b, rfl⟩ := adjErrors_shape _ x hx
    exact ⟨a, b, List.mem_append_right _ hx⟩

theorem validate_accepts_iff_and_reports_all_witness :
    (validateErrors [⟨"a", "x"⟩, ⟨"b", "x"⟩]).count (VErr.duplicate "x") =
      (normPaths [⟨"a", "x"⟩, ⟨"b", "x"⟩]).count "x" - 1 :=
  (validate_accepts_iff_and_reports_all
    [⟨"a", "x"⟩, ⟨"b", "x"⟩]).2.2.2.2.1 "x" (by decide)

/-! ### JSON values and output documents

`OutputDocument` is a tree of nested mappings whose leaves hold scalar
values or null (§3).  Database row values are scalars or null; JavaScript
arrays do not occur in this value universe (the service has no
array-indexed paths), so the `Array.isArray` guards of the source are
covered by the scalar cases. -/

inductive JVal where
  | null
  | str (s : String)
  | num (n : Int)
  | bool (b : Bool)
  | obj (fields : List (String × JVal))

/-- A database scalar value (or SQL NULL) as returned in a row. -/
inductive SVal where
  | null
  | str (s : String)
  | num (n : Int)
  | bool (b : Bool)
deriving DecidableEq

def SVal.toJVal : SVal → JVal
  | .null => .null
  | .str s => .str s
  | .num n => .num n
  | .bool b => .bool b

/-- One fetched row: column name to scalar-or-null. -/
abbrev Row := List (String × SVal)

/-- `typeof v !== "object"` for a defined, non-null value: the value is a
scalar (would trigger the collision guard at an intermediate segment). -/
def isScalarJV : JVal → Bool
  | .null => false
  | .obj _ => false
  | _ => true

/-- JavaScript property read `obj[k]` on our association-list objects. -/
def lookupD (k : String) : List (String × JVal) → Option JVal
  | [] => none
  | (k2, v) :: t => if k2 = k then some v else lookupD k t

def lookupRow (k : String) : Row → Option SVal
  | [] => none
  | (k2, v) :: t => if k2 = k then some v else lookupRow k t

/-- JavaScript property write `obj[k] = v`: update in place if the key
exists, append otherwise. -/
def setKey (k : String) (v : JVal) : List (String × JVal) → List (String × JVal)
  | [] => [(k, v)]
  | (k2, v2) :: t => if k2 = k then (k2, v) :: t else (k2, v2) :: setKey k v t

/-- The failure modes of `MappingService.setNestedValue`. -/
inductive PErr where
  | midCollision   -- PathCollisionError: scalar at an intermediate segment
  | leafCollision  -- PathCollisionError: non-empty object at the final segment
  | typeError      -- JS TypeError from Object.keys(null) at the final segment
deriving DecidableEq

/-- `MappingService.setNestedValue(obj, dotPath, value)`, as a pure
function on the split segment list: walk the non-final segments, failing
on a defined non-null non-object value, creating `{}` where the slot is
absent or null; at the final segment fail if a non-empty object is
already there, otherwise assign. -/
def setNested (obj : List (String × JVal)) (segs : List String) (v : JVal) :
    Except PErr (List (String × JVal)) :=
  match segs with
  | [] => .ok obj
  | [k] =>
    match lookupD k obj with
    | some (.obj f) =>
      if 0 < f.length then .error .leafCollision else .ok (setKey k v obj)
    | some .null => .error .typeError
    | _ => .ok (setKey k v obj)
  | k :: rest =>
    match lookupD k obj with
    | some (.obj f) =>
      match setNested f rest v with
      | .ok f2 => .ok (setKey k (.obj f2) obj)
      | .error e => .error e
    | some .null | none =>
      match setNested [] rest v with
      | .ok f2 => .ok (setKey k (.obj f2) obj)
      | .error e => .error e
    | some _ => .error .midCollision

/-- The state of the walk after the non-final segments `pre`: the object
whose keys the walk inspects next (`none` when the walk has already
failed on a scalar; absent/null slots behave as a fresh `{}`). -/
def walkTo (obj : List (String × JVal)) : List String →
    Option (List (String × JVal))
  | [] => some obj
  | k :: ks =>
    match lookupD k obj with
    | some (.obj f) => walkTo f ks
    | some .null => walkTo ([] : List (String × JVal)) ks
    | none => walkTo ([] : List (String × JVal)) ks
    | some _ => none

theorem walkTo_nil (pre : List String) :
    walkTo ([] : List (String × JVal)) pre = some [] := by
  induction pre with
  | nil => rfl
  | cons k ks ih => simp [walkTo, lookupD, ih]

theorem setNested_fresh_ok (segs : List String) (v : JVal) (h : segs ≠ []) :
    ∃ f2, setNested [] segs v = .ok f2 := by
  match segs with
  | [] => exact absurd rfl h
  | [k] => exact ⟨[(k, v)], rfl⟩
  | k :: k2 :: rest =>
    obtain ⟨f2, hf2⟩ := setNested_fresh_ok (k2 :: rest) v (by simp)
    exact ⟨setKey k (.obj f2) [], by simp [setNested, lookupD, hf2]⟩

/-- Scalar hit on a non-final segment: the fold fails with
`PathCollisionError`. -/
theorem setNested_scalar_mid (pre : List String) :
    ∀ (obj f : List (String × JVal)) (k : String) (rest : List String)
      (v s : JVal), walkTo obj pre = some f → rest ≠ [] →
      lookupD k f = some s → isScalarJV s = true →
      setNested obj (pre ++ k :: rest) v = .error .midCollision := by
  induction pre with
  | nil =>
    intro obj f k rest v s hw hrest hlk hsc
    have hf : obj = f := by simpa [walkTo] using hw
    subst hf
    cases rest with
    | nil => exact absurd rfl hrest
    | cons r rs =>
      cases s with
      | str s2 => simp [setNested, hlk]
      | num n => simp [setNested, hlk]
      | bool b => simp [setNested, hlk]
      | null => simp [isScalarJV] at hsc
      | obj f2 => simp [isScalarJV] at hsc
  | cons k0 pre ih =>
    intro obj f k rest v s hw hrest hlk hsc
    cases hl : lookupD k0 obj with
    | none =>
      rw [walkTo, hl, walkTo_nil] at hw
      have hf : f = [] := (Option.some.inj hw).symm
      subst hf
      simp [lookupD] at hlk
    | some val =>
      cases val with
      | obj f0 =>
        rw [walkTo, hl] at hw
        have hmid := ih f0 f k rest v s hw hrest hlk hsc
        cases hpp : pre ++ k :: rest with
        | nil => simp at hpp
        | cons t ts =>
          rw [hpp] at hmid
          rw [List.cons_append, hpp]
          simp [setNested, hl, hmid]
      | null =>
        rw [walkTo, hl, walkTo_nil] at hw
        have hf : f = [] := (Option.some.inj hw).symm
        subst hf
        simp [lookupD] at hlk
      | str s2 => rw [walkTo, hl] at hw; cases hw
      | num n => rw [walkTo, hl] at hw; cases hw
      | bool b => rw [walkTo, hl] at hw; cases hw

/-- Null hit on a non-final segment: the walk silently replaces the null
by a fresh intermediate object and the fold succeeds. -/
theorem setNested_null_mid_ok (pre : List String) :
    ∀ (obj f : List (String × JVal)) (k : String) (rest : List String)
      (v : JVal), walkTo obj pre = some f → rest ≠ [] →
      lookupD k f = some .null →
      ∃ res, setNested obj (pre ++ k :: rest) v = .ok res := by
  induction pre with
  | nil =>
    intro obj f k rest v hw hrest hlk
    have hf : obj = f := by simpa [walkTo] using hw
    subst hf
    cases rest with
    | nil => exact absurd rfl hrest
    | cons r rs =>
      obtain ⟨f2, hf2⟩ := setNested_fresh_ok (r :: rs) v (by simp)
      exact ⟨setKey k (.obj f2) obj, by simp [setNested, hlk, hf2]⟩
  | cons k0 pre ih =>
    intro obj f k rest v hw hrest hlk
    cases hl : lookupD k0 obj with
    | none =>
      rw [walkTo, hl, walkTo_nil] at hw
      have hf : f = [] := (Option.some.inj hw).symm
      subst hf
      simp [lookupD] at hlk
    | some val =>
      cases val with
      | obj f0 =>
        rw [walkTo, hl] at hw
        obtain ⟨res0, hres0⟩ := ih f0 f k rest v hw hrest hlk
        cases hpp : pre ++ k :: rest with
        | nil => simp at hpp
        | cons t ts =>
          rw [hpp] at hres0
          rw [List.cons_append, hpp]
          exact ⟨setKey k0 (.obj res0) obj, by simp [setNested, hl, hres0]⟩
      | null =>
        rw [walkTo, hl, walkTo_nil] at hw
        have hf : f = [] := (Option.some.inj hw).symm
        subst hf
        simp [lookupD] at hlk
      | str s2 => rw [walkTo, hl] at hw; cases hw
      | num n => rw [walkTo, hl] at hw; cases hw
      | bool b => rw [walkTo, hl] at hw; cases hw

/-- `row[sourceColumn] ?? null`, as a scalar. -/
def rowValueS (row : Row) (col : String) : SVal :=
  match lookupRow col row with
  | some s => s
  | none => .null

/-- `row[sourceColumn] ?? null`. -/
def rowValue (row : Row) (col : String) : JVal :=
  (rowValueS row col).toJVal

/-- The entry loop of `MappingService.applyMapping`. -/
def applyGo (row : Row) : List (String × JVal) → List MappingEntry →
    Except PErr (List (String × JVal))
  | acc, [] => .ok acc
  | acc, e :: es =>
    match setNested acc (splitSegs (normPath e.targetPath))
        (rowValue row e.sourceColumn) with
    | .error er => .error er
    | .ok acc2 => applyGo row acc2 es

/-- `MappingService.applyMapping`: fold every entry into a fresh
document via nested assignment, in entry order. -/
def applyMapping (row : Row) (m : List MappingEntry) :
    Except PErr (List (String × JVal)) :=
  applyGo row [] m

/-- `result.rows.map((row) => this.applyMapping(row, mapping))` in the
`Except` monad: the first collision aborts the whole transform. -/
def mapRows (m : List MappingEntry) : List Row →
    Except PErr (List (List (String × JVal)))
  | [] => .ok []
  | r :: rs =>
    match applyMapping r m with
    | .error e => .error e
    | .ok d =>
      match mapRows m rs with
      | .error e => .error e
      | .ok ds => .ok (d :: ds)

theorem mapRows_length (m : List MappingEntry) :
    ∀ (rs : List Row) (ds : List (List (String × JVal))),
      mapRows m rs = .ok ds → ds.length = rs.length := by
  intro rs
  induction rs with
  | nil => intro ds h; cases h; rfl
  | cons r rs ih =>
    intro ds h
    rw [mapRows] at h
    cases ha : applyMapping r m with
    | error e => rw [ha] at h; cases h
    | ok d =>
      rw [ha] at h
      cases hm : mapRows m rs with
      | error e => rw [hm] at h; cases h
      | ok ds2 =>
        rw [hm] at h
        cases h
        simp [ih ds2 hm]

/-! ### Identifier sanitizer (`TableService.sanitizeIdentifier`) -/

inductive SanErr where
  | invalidIdentifier
  | identifierTooLong
deriving DecidableEq

/-- The PostgreSQL reserved keywords of `TableService.RESERVED_KEYWORDS`. -/
def RESERVED_KEYWORDS : List String :=
  ["all", "analyse", "analyze", "and", "any", "array", "as", "asc", "asymmetric",
   "both", "case", "cast", "check", "collate", "column", "constraint", "create",
   "current_catalog", "current_date", "current_role", "current_time",
   "current_timestamp", "current_user", "default", "deferrable", "desc",
   "distinct", "do", "else", "end", "except", "false", "fetch", "for",
   "foreign", "from", "grant", "group", "having", "in", "initially", "intersect",
   "into", "lateral", "leading", "limit", "localtime", "localtimestamp", "not",
   "null", "offset", "on", "only", "or", "order", "placing", "primary",
   "references", "returning", "select", "session_user", "some", "symmetric",
   "table", "then", "to", "trailing", "true", "union", "unique", "user",
   "using", "variadic", "when", "where", "window", "with"]

def toLowerStr (s : String) : String := ⟨s.data.map Char.toLower⟩

/-- `TableService.sanitizeIdentifier`: regex check, then length check
(63), then quoting — reserved keywords and ordinary identifiers are both
returned in double quotes. -/
def sanitizeIdentifier (s : String) : Except SanErr String :=
  if isIdentB s = false then .error .invalidIdentifier
  else if 63 < s.length then .error .identifierTooLong
  else if toLowerStr s ∈ RESERVED_KEYWORDS then .ok ("\"" ++ s ++ "\"")
  else .ok ("\"" ++ s ++ "\"")

/-- C7: `sanitize` fails with `InvalidIdentifierError` exactly when the
identifier does not match `^[A-Za-z_][A-Za-z0-9_]*$`, fails with
`IdentifierTooLongError` exactly when it matches but its length exceeds
63, and otherwise succeeds returning the identifier wrapped in double
quotes unconditionally — whether or not it is a reserved keyword. -/
theorem sanitize_characterization (s : String) :
    (sanitizeIdentifier s = .error .invalidIdentifier ↔ isIdentB s = false) ∧
    (sanitizeIdentifier s = .error .identifierTooLong ↔
      isIdentB s = true ∧ 63 < s.length) ∧
    (isIdentB s = true → s.length ≤ 63 →
      sanitizeIdentifier s = .ok ("\"" ++ s ++ "\"")) := by
  by_cases h1 : isIdentB s = false
  · refine ⟨by simp [sanitizeIdentifier, h1], by simp [sanitizeIdentifier, h1], ?_⟩
    intro h2
    rw [h1] at h2
    cases h2
  · have h1t : isIdentB s = true := by
      rcases Bool.eq_false_or_eq_true (isIdentB s) with h | h
      · exact h
      · exact absurd h h1
    by_cases h2 : 63 < s.length
    · refine ⟨by simp [sanitizeIdentifier, h1t, h2], by simp [sanitizeIdentifier, h1t, h2], ?_⟩
      intro _ h3
      omega
    · by_cases h3 : toLowerStr s ∈ RESERVED_KEYWORDS
      · exact ⟨by simp [sanitizeIdentifier, h1t, h2, h3],
          by simp [sanitizeIdentifier, h1t, h2, h3],
          fun _ _ => by simp [sanitizeIdentifier, h1t, h2, h3]⟩
      · exact ⟨by simp [sanitizeIdentifier, h1t, h2, h3],
          by simp [sanitizeIdentifier, h1t, h2, h3],
          fun _ _ => by simp [sanitizeIdentifier, h1t, h2, h3]⟩

theorem sanitize_characterization_witness :
    sanitizeIdentifier "user" = .ok "\"user\"" ∧
      sanitizeIdentifier "orders" = .ok "\"orders\"" :=
  ⟨(sanitize_characterization "user").2.2 (by decide) (by decide),
   (sanitize_characterization "orders").2.2 (by decide) (by decide)⟩

/-! ### Transformation engine (`MappingService.fetchAndTransformData`)

The database interaction is modelled by its observable contract: the
table-existence check, the actual column set, and the rows the table
would yield (`SELECT … LIMIT $1` returns at most `limit` of them, in
order). -/

inductive TErr where
  | invalidMapping (errs : List VErr)
  | unknownTable
  | unknownColumns (cols : List String)
  | badIdentifier (e : SanErr)
  | collision (e : PErr)

/-- `[...new Set(xs)]`: first-occurrence deduplication. -/
def dedupGo : List String → List String → List String
  | _, [] => []
  | seen, c :: cs => if c ∈ seen then dedupGo seen cs else c :: dedupGo (c :: seen) cs

def dedupStr (l : List String) : List String := dedupGo [] l

def sanitizeAll : List String → Except SanErr (List String)
  | [] => .ok []
  | c :: cs =>
    match sanitizeIdentifier c with
    | .error e => .error e
    | .ok q =>
      match sanitizeAll cs with
      | .error e => .error e
      | .ok qs => .ok (q :: qs)

/-- `fetchAndTransformData(pool, tableName, limit, mapping)`: validate the
mapping, check the table, check the distinct source columns against the
table's columns, sanitize all identifiers, read at most `limit` rows, and
fold each row.  The caller-supplied `limit` is bound to the query
parameter unmodified — the engine applies no cap of its own. -/
def fetchAndTransformData (dbRows : List Row) (tableExistsB : Bool)
    (tableCols : List String) (tableName : String) (limit : Nat)
    (m : List MappingEntry) : Except TErr (List (List (String × JVal))) :=
  match validateMapping m with
  | .error errs => .error (.invalidMapping errs)
  | .ok () =>
    if tableExistsB = false then .error .unknownTable
    else
      if (dedupStr (m.map fun e => e.sourceColumn)).filter
          (fun c => c ∉ tableCols) ≠ [] then
        .error (.unknownColumns ((dedupStr (m.map fun e => e.sourceColumn)).filter
          (fun c => c ∉ tableCols)))
      else
        match sanitizeAll (dedupStr (m.map fun e => e.sourceColumn)) with
        | .error e => .error (.badIdentifier e)
        | .ok _ =>
          match sanitizeIdentifier tableName with
          | .error e => .error (.badIdentifier e)
          | .ok _ =>
            match mapRows m (dbRows.take limit) with
            | .error e => .error (.collision e)
            | .ok docs => .ok docs

/-- C3 (corrected), counterexample to "including null": folding the row
`{}` with mapping `[(a,"x"), (b,"x.y")]` first assigns `null` at `x`
(missing source values map to explicit null), then the walk of `x.y`
finds `null` at the non-final segment `x` and silently replaces it with
an intermediate object instead of raising `PathCollisionError`. -/
theorem null_midsegment_not_collision_cex :
    setNested [] ["x"] JVal.null = .ok [("x", JVal.null)] ∧
      setNested [("x", JVal.null)] ["x", "y"] JVal.null =
        .ok [("x", JVal.obj [("y", JVal.null)])] ∧
      applyMapping [] [⟨"a", "x"⟩, ⟨"b", "x.y"⟩] =
        .ok [("x", JVal.obj [("y", JVal.null)])] :=
  ⟨rfl, rfl, rfl⟩

/-- C3 (amended): whenever the walk of a target path reaches a non-final
segment whose key already holds a defined, non-null, non-mapping (scalar)
value, the whole transform fails with `PathCollisionError`; a `null` at a
non-final segment, however, is treated as absent and silently replaced by
an intermediate object, and the fold succeeds below it. -/
theorem fold_scalar_blocks_null_replaced
    (obj f : List (String × JVal)) (pre : List String) (k : String)
    (rest : List String) (v : JVal)
    (hw : walkTo obj pre = some f) (hrest : rest ≠ []) :
    (∀ s, lookupD k f = some s → isScalarJV s = true →
      setNested obj (pre ++ k :: rest) v = .error .midCollision) ∧
    (lookupD k f = some .null →
      ∃ res, setNested obj (pre ++ k :: rest) v = .ok res) :=
  ⟨fun s hlk hsc => setNested_scalar_mid pre obj f k rest v s hw hrest hlk hsc,
   fun hlk => setNested_null_mid_ok pre obj f k rest v hw hrest hlk⟩

theorem fold_scalar_blocks_null_replaced_witness :
    setNested [("a", JVal.str "v")] ["a", "b"] JVal.null =
      .error .midCollision :=
  (fold_scalar_blocks_null_replaced [("a", JVal.str "v")]
    [("a", JVal.str "v")] [] "a" ["b"] JVal.null rfl (by decide)).1
    (JVal.str "v") rfl rfl

/-! ### The preview request schema (`previewRequestSchema`) -/

/-- The zod `limit` field: integer, min 1, max 100, default 5 when
absent. -/
def previewLimit (l : Option Int) : Except String Nat :=
  match l with
  | none => .ok 5
  | some n =>
    if n < 1 then .error "Number must be greater than or equal to 1"
    else if 100 < n then .error "Number must be less than or equal to 100"
    else .ok n.toNat

/-- C5 (corrected), counterexample: called directly with `limit = 101`
and 101 available rows, the transformation engine issues the read with
that limit and returns 101 documents — more than the claimed hard bound
of 100.  The engine itself applies no cap. -/
theorem engine_applies_no_cap_cex :
    fetchAndTransformData (List.replicate 101 [("a", SVal.null)]) true
        ["a"] "t" 101 [⟨"a", "x"⟩] =
      .ok (List.replicate 101 [("x", JVal.null)]) ∧
    (List.replicate 101 [("x", JVal.null)] :
      List (List (String × JVal))).length = 101 := by
  refine ⟨?_, by simp⟩
  rfl

/-- C5 (amended): the 100-row bound is enforced by the request-validation
schema at the system boundary — `limit` is accepted exactly when it lies
in [1,100] (default 5 when absent) — while the engine itself passes the
caller-supplied limit through to the query unmodified and returns at most
`limit` rows for any `limit`. -/
theorem limit_enforced_at_schema_not_engine :
    (∀ (n : Int) (k : Nat), previewLimit (some n) = .ok k →
      1 ≤ n ∧ n ≤ 100 ∧ k ≤ 100) ∧
    previewLimit none = .ok 5 ∧
    (∀ (dbRows : List Row) (te : Bool) (cols : List String) (tn : String)
      (limit : Nat) (m : List MappingEntry)
      (docs : List (List (String × JVal))),
      fetchAndTransformData dbRows te cols tn limit m = .ok docs →
      docs.length ≤ limit) := by
  refine ⟨?_, rfl, ?_⟩
  · intro n k h
    rw [previewLimit] at h
    by_cases h1 : n < 1
    · rw [if_pos h1] at h; cases h
    · rw [if_neg h1] at h
      by_cases h2 : 100 < n
      · rw [if_pos h2] at h; cases h
      · rw [if_neg h2] at h
        cases h
        push_neg at h1 h2
        refine ⟨h1, h2, ?_⟩
        omega
  · intro dbRows te cols tn limit m docs h
    rw [fetchAndTransformData] at h
    cases hv : validateMapping m with
    | error errs => rw [hv] at h; cases h
    | ok u =>
      cases u
      rw [hv] at h
      by_cases hte : te = false
      · rw [if_pos hte] at h; cases h
      · rw [if_neg hte] at h
        by_cases hmiss : (dedupStr (m.map fun e => e.sourceColumn)).filter
            (fun c => c ∉ cols) ≠ []
        · rw [if_pos hmiss] at h; cases h
        · rw [if_neg hmiss] at h
          cases hs1 : sanitizeAll (dedupStr (m.map fun e => e.sourceColumn)) with
          | error e => rw [hs1] at h; cases h
          | ok qs =>
            rw [hs1] at h
            cases hs2 : sanitizeIdentifier tn with
            | error e => rw [hs2] at h; cases h
            | ok q =>
              rw [hs2] at h
              cases hmr : mapRows m (dbRows.take limit) with
              | error e => rw [hmr] at h; cases h
              | ok docs2 =>
                rw [hmr] at h
                injection h with h2
                subst h2
                have hlen := mapRows_length m (dbRows.take limit) _ hmr
                rw [hlen, List.length_take]
                exact min_le_left _ _

theorem limit_enforced_at_schema_not_engine_witness :
    ([[("x", JVal.null)]] : List (List (String × JVal))).length ≤ 5 :=
  limit_enforced_at_schema_not_engine.2.2 [[("a", SVal.null)]] true ["a"]
    "t" 5 [⟨"a", "x"⟩] [[("x", JVal.null)]] rfl

/-! ### The trie invariant for the fold (claim C1)

After folding some set `D` of segment paths into a document, every key
chain of the document either lies strictly inside one of the folded
paths (and holds an intermediate object) or is exactly a folded path
(and holds the row's scalar value). -/

abbrev SegPath := List String

/-- The paths of `D` that enter at key `k`, with that key stripped. -/
def tailsOf (D : List SegPath) (k : String) : List SegPath :=
  D.filterMap fun q =>
    match q with
    | [] => none
    | k2 :: t => if k2 = k then some t else none

theorem mem_tailsOf (D : List SegPath) (k : String) (t : SegPath) :
    t ∈ tailsOf D k ↔ k :: t ∈ D := by
  rw [tailsOf, List.mem_filterMap]
  constructor
  · rintro ⟨q, hq, hmat⟩
    cases q with
    | nil => cases hmat
    | cons k2 t2 =>
      have hmat2 : (if k2 = k then some t2 else none) = some t := hmat
      by_cases hk : k2 = k
      · rw [if_pos hk] at hmat2
        injection hmat2 with ht
        subst hk
        subst ht
        exact hq
      · rw [if_neg hk] at hmat2
        cases hmat2
  · intro h
    exact ⟨k :: t, h, by simp⟩

theorem tailsOf_cons_head (t : SegPath) (D : List SegPath) (k : String) :
    tailsOf ((k :: t) :: D) k = t :: tailsOf D k := by
  simp [tailsOf]

theorem tailsOf_cons_ne (t : SegPath) (D : List SegPath) (k k2 : String)
    (h : k2 ≠ k) : tailsOf ((k2 :: t) :: D) k = tailsOf D k := by
  simp [tailsOf, h]

/-- `Shaped v D`: the value `v` sits at a node whose remaining folded
paths are exactly `D`. -/
inductive Shaped : JVal → List SegPath → Prop where
  | leaf (s : SVal) (D : List SegPath) (h : [] ∈ D) : Shaped s.toJVal D
  | node (f : List (String × JVal)) (D : List SegPath)
      (hnil : [] ∉ D)
      (hne : ∀ k v, lookupD k f = some v → tailsOf D k ≠ [])
      (hkeys : ∀ k v, lookupD k f = some v → Shaped v (tailsOf D k))
      (hcomp : ∀ k, tailsOf D k ≠ [] → (lookupD k f).isSome = true) :
      Shaped (.obj f) D

theorem shaped_obj_inv {f : List (String × JVal)} {D : List SegPath}
    (h : Shaped (.obj f) D) :
    [] ∉ D ∧
      (∀ k v, lookupD k f = some v → tailsOf D k ≠ []) ∧
      (∀ k v, lookupD k f = some v → Shaped v (tailsOf D k)) ∧
      (∀ k, tailsOf D k ≠ [] → (lookupD k f).isSome = true) := by
  generalize hv : JVal.obj f = v0 at h
  cases h with
  | leaf s D2 hs => cases s <;> simp [SVal.toJVal] at hv
  | node f2 D hnil hne hkeys hcomp =>
    injection hv with hf
    subst hf
    exact ⟨hnil, hne, hkeys, hcomp⟩

theorem shaped_nonobj_mem {v : JVal} {D : List SegPath} (h : Shaped v D)
    (hv : ∀ f, v ≠ JVal.obj f) : [] ∈ D := by
  cases h with
  | leaf s D2 hs => exact hs
  | node f D hnil hne hkeys hcomp => exact absurd rfl (hv f)

theorem shaped_empty : Shaped (JVal.obj []) ([] : List SegPath) := by
  refine Shaped.node [] [] (by simp) ?_ ?_ ?_
  · intro k v h
    simp [lookupD] at h
  · intro k v h
    simp [lookupD] at h
  · intro k h
    simp [tailsOf] at h

theorem lookupD_setKey (k k2 : String) (v : JVal) :
    ∀ (obj : List (String × JVal)),
      lookupD k2 (setKey k v obj) =
        if k2 = k then some v else lookupD k2 obj := by
  intro obj
  induction obj with
  | nil =>
    by_cases h : k2 = k
    · subst h
      simp [setKey, lookupD]
    · have h2 : ¬ k = k2 := fun he => h he.symm
      simp [setKey, lookupD, h, h2]
  | cons hd tl ih =>
    obtain ⟨k3, v3⟩ := hd
    by_cases h3 : k3 = k
    · subst h3
      by_cases h2 : k2 = k3
      · subst h2
        simp [setKey, lookupD]
      · have h2b : ¬ k3 = k2 := fun he => h2 he.symm
        simp [setKey, lookupD, h2, h2b]
    · by_cases h2 : k3 = k2
      · subst h2
        have h2c : ¬ k3 = k := h3
        simp [setKey, lookupD, h2c]
      · simp [setKey, lookupD, h3, h2, ih]

/-- (Non-strict) segment-path prefix. -/
def SegPre (a b : SegPath) : Prop := ∃ t, b = a ++ t

/-- Rebuilding the invariant after writing `w` under key `k`. -/
theorem shaped_setKey (f : List (String × JVal)) (D : List SegPath)
    (k : String) (rest : SegPath) (w : JVal)
    (hnil : [] ∉ D)
    (hne : ∀ k2 v2, lookupD k2 f = some v2 → tailsOf D k2 ≠ [])
    (hkeys : ∀ k2 v2, lookupD k2 f = some v2 → Shaped v2 (tailsOf D k2))
    (hcomp : ∀ k2, tailsOf D k2 ≠ [] → (lookupD k2 f).isSome = true)
    (hw : Shaped w (rest :: tailsOf D k)) :
    Shaped (.obj (setKey k w f)) ((k :: rest) :: D) := by
  refine Shaped.node _ _ ?_ ?_ ?_ ?_
  · intro hmem
    rcases List.mem_cons.mp hmem with h | h
    · cases h
    · exact hnil h
  · intro k2 v2 hlk2
    rw [lookupD_setKey] at hlk2
    by_cases hk2 : k2 = k
    · subst hk2
      rw [tailsOf_cons_head]
      simp
    · rw [tailsOf_cons_ne _ _ _ _ (fun he => hk2 he.symm)]
      rw [if_neg hk2] at hlk2
      exact hne k2 v2 hlk2
  · intro k2 v2 hlk2
    rw [lookupD_setKey] at hlk2
    by_cases hk2 : k2 = k
    · subst hk2
      rw [if_pos rfl] at hlk2
      injection hlk2 with hv2
      subst hv2
      rw [tailsOf_cons_head]
      exact hw
    · rw [if_neg hk2] at hlk2
      rw [tailsOf_cons_ne _ _ _ _ (fun he => hk2 he.symm)]
      exact hkeys k2 v2 hlk2
  · intro k2 hne2
    rw [lookupD_setKey]
    by_cases hk2 : k2 = k
    · rw [if_pos hk2]; rfl
    · rw [if_neg hk2]
      apply hcomp
      rwa [tailsOf_cons_ne _ _ _ _ (fun he => hk2 he.symm)] at hne2

/-- Folding one fresh path into a shaped document succeeds and preserves
the invariant, provided the new path is prefix-free against the already
folded ones. -/
theorem setNested_shaped :
    ∀ (p : SegPath) (f : List (String × JVal)) (D : List SegPath) (v : SVal),
      Shaped (.obj f) D → p ≠ [] →
      (∀ q ∈ D, ¬ SegPre p q ∧ ¬ SegPre q p) →
      ∃ f2, setNested f p v.toJVal = .ok f2 ∧ Shaped (.obj f2) (p :: D) := by
  intro p
  induction p with
  | nil => intro f D v _ hne _; exact absurd rfl hne
  | cons k rest ih =>
    intro f D v hsh _ hfree
    obtain ⟨hnil, hneK, hkeys, hcomp⟩ := shaped_obj_inv hsh
    cases rest with
    | nil =>
      have htails : tailsOf D k = [] := by
        cases hc : tailsOf D k with
        | nil => rfl
        | cons t ts =>
          exfalso
          have htm : k :: t ∈ D := (mem_tailsOf D k t).mp
            (by rw [hc]; exact List.mem_cons_self t ts)
          exact (hfree (k :: t) htm).1 ⟨t, rfl⟩
      have hlk : lookupD k f = none := by
        cases hc : lookupD k f with
        | none => rfl
        | some v2 => exact absurd htails (hneK k v2 hc)
      refine ⟨setKey k v.toJVal f, ?_, ?_⟩
      · simp [setNested, hlk]
      · exact shaped_setKey f D k [] v.toJVal hnil hneK hkeys hcomp
          (Shaped.leaf v ([] :: tailsOf D k) (List.mem_cons_self _ _))
    | cons r rs =>
      cases hlk : lookupD k f with
      | none =>
        have htails : tailsOf D k = [] := by
          cases hc : tailsOf D k with
          | nil => rfl
          | cons t ts =>
            exfalso
            have hs := hcomp k (by rw [hc]; simp)
            rw [hlk] at hs
            cases hs
        obtain ⟨f2, hf2, hsh2⟩ := ih [] [] v shaped_empty (by simp)
          (by intro q hq; cases hq)
        refine ⟨setKey k (.obj f2) f, ?_, ?_⟩
        · simp [setNested, hlk, hf2]
        · refine shaped_setKey f D k (r :: rs) (.obj f2) hnil hneK hkeys hcomp ?_
          rw [htails]
          exact hsh2
      | some val =>
        have hshv : Shaped val (tailsOf D k) := hkeys k val hlk
        cases val with
        | null =>
          exfalso
          have hmem : [] ∈ tailsOf D k :=
            shaped_nonobj_mem hshv (by intro f2 h2; cases h2)
          have hkD : (k :: ([] : SegPath)) ∈ D := (mem_tailsOf D k []).mp hmem
          exact (hfree (k :: []) hkD).2 ⟨r :: rs, rfl⟩
        | str s2 =>
          exfalso
          have hmem : [] ∈ tailsOf D k :=
            shaped_nonobj_mem hshv (by intro f2 h2; cases h2)
          have hkD : (k :: ([] : SegPath)) ∈ D := (mem_tailsOf D k []).mp hmem
          exact (hfree (k :: []) hkD).2 ⟨r :: rs, rfl⟩
        | num n =>
          exfalso
          have hmem : [] ∈ tailsOf D k :=
            shaped_nonobj_mem hshv (by intro f2 h2; cases h2)
          have hkD : (k :: ([] : SegPath)) ∈ D := (mem_tailsOf D k []).mp hmem
          exact (hfree (k :: []) hkD).2 ⟨r :: rs, rfl⟩
        | bool b =>
          exfalso
          have hmem : [] ∈ tailsOf D k :=
            shaped_nonobj_mem hshv (by intro f2 h2; cases h2)
          have hkD : (k :: ([] : SegPath)) ∈ D := (mem_tailsOf D k []).mp hmem
          exact (hfree (k :: []) hkD).2 ⟨r :: rs, rfl⟩
        | obj f0 =>
          have hfree0 : ∀ q0 ∈ tailsOf D k,
              ¬ SegPre (r :: rs) q0 ∧ ¬ SegPre q0 (r :: rs) := by
            intro q0 hq0
            have hkq : k :: q0 ∈ D := (mem_tailsOf D k q0).mp hq0
            have hf := hfree (k :: q0) hkq
            constructor
            · rintro ⟨t, ht⟩
              exact hf.1 ⟨t, by simp [ht]⟩
            · rintro ⟨t, ht⟩
              exact hf.2 ⟨t, by simp [ht]⟩
          obtain ⟨f2, hf2, hsh2⟩ := ih f0 (tailsOf D k) v hshv (by simp) hfree0
          refine ⟨setKey k (.obj f2) f, ?_, ?_⟩
          · simp [setNested, hlk, hf2]
          · exact shaped_setKey f D k (r :: rs) (.obj f2) hnil hneK hkeys hcomp hsh2

theorem splitSegs_ne_nil (s : String) : splitSegs s ≠ [] := by
  rw [splitSegs]
  intro h
  exact splitD_ne_nil s.data (List.map_eq_nil_iff.mp h)

theorem splitSegs_data (s : String) :
    (splitSegs s).map String.data = splitD s.data := by
  rw [splitSegs, List.map_map]
  exact List.map_id _

theorem splitSegs_inj {p q : String} (h : splitSegs p = splitSegs q) :
    p = q := by
  have h2 : splitD p.data = splitD q.data := by
    rw [← splitSegs_data, ← splitSegs_data, h]
  have h3 : p.data = q.data := by
    rw [← joinDots_splitD p.data, ← joinDots_splitD q.data, h2]
  cases p
  cases q
  exact congrArg String.mk h3

/-- A segment-level prefix between two paths is a string-level dot-prefix
(or equality). -/
theorem segPre_dotPrefix {p q : String}
    (h : SegPre (splitSegs p) (splitSegs q)) :
    p = q ∨ dotPrefixB p q = true := by
  obtain ⟨T, hT⟩ := h
  cases T with
  | nil =>
    left
    apply splitSegs_inj
    rw [hT, List.append_nil]
  | cons T0 Ts =>
    right
    have hd : splitD q.data = splitD p.data ++ (T0 :: Ts).map String.data := by
      rw [← splitSegs_data, ← splitSegs_data, hT, List.map_append]
    have hjq := joinDots_splitD q.data
    rw [hd, joinDots_append _ _ (splitD_ne_nil _) (by simp),
      joinDots_splitD] at hjq
    rw [dotPrefixB_iff]
    exact ⟨joinDots ((T0 :: Ts).map String.data), hjq.symm⟩

theorem pairwise_imp_mem {α : Type} {R S : α → α → Prop} :
    ∀ {l : List α}, (∀ a b, a ∈ l → b ∈ l → R a b → S a b) →
      l.Pairwise R → l.Pairwise S := by
  intro l
  induction l with
  | nil => intro _ _; exact List.Pairwise.nil
  | cons x xs ih =>
    intro himp hp
    rw [List.pairwise_cons] at hp ⊢
    obtain ⟨h1, h2⟩ := hp
    exact ⟨fun b hb => himp x b (List.mem_cons_self _ _)
        (List.mem_cons_of_mem _ hb) (h1 b hb),
      ih (fun a b ha hb => himp a b (List.mem_cons_of_mem _ ha)
        (List.mem_cons_of_mem _ hb)) h2⟩

/-- The whole entry loop of `applyMapping` succeeds on a shaped
accumulator when the entry paths are pairwise prefix-free and prefix-free
against the already folded paths. -/
theorem applyGo_ok :
    ∀ (entries : List MappingEntry) (row : Row)
      (f : List (String × JVal)) (D : List SegPath),
      Shaped (.obj f) D →
      (∀ e ∈ entries, ∀ q ∈ D,
        ¬ SegPre (splitSegs (normPath e.targetPath)) q ∧
        ¬ SegPre q (splitSegs (normPath e.targetPath))) →
      List.Pairwise (fun e1 e2 =>
        ¬ SegPre (splitSegs (normPath e1.targetPath))
          (splitSegs (normPath e2.targetPath)) ∧
        ¬ SegPre (splitSegs (normPath e2.targetPath))
          (splitSegs (normPath e1.targetPath))) entries →
      ∃ f2, applyGo row f entries = .ok f2 := by
  intro entries
  induction entries with
  | nil => intro row f D _ _ _; exact ⟨f, rfl⟩
  | cons e es ih =>
    intro row f D hsh hD hPW
    obtain ⟨f2, hset, hsh2⟩ := setNested_shaped
      (splitSegs (normPath e.targetPath)) f D (rowValueS row e.sourceColumn)
      hsh (splitSegs_ne_nil _) (hD e (List.mem_cons_self _ _))
    rw [List.pairwise_cons] at hPW
    obtain ⟨hhead, htail⟩ := hPW
    have hD2 : ∀ e2 ∈ es, ∀ q ∈ (splitSegs (normPath e.targetPath)) :: D,
        ¬ SegPre (splitSegs (normPath e2.targetPath)) q ∧
        ¬ SegPre q (splitSegs (normPath e2.targetPath)) := by
      intro e2 he2 q hq
      rcases List.mem_cons.mp hq with rfl | hq2
      · exact ⟨(hhead e2 he2).2, (hhead e2 he2).1⟩
      · exact hD e2 (List.mem_cons_of_mem _ he2) q hq2
    obtain ⟨f3, h3⟩ := ih row f2
      ((splitSegs (normPath e.targetPath)) :: D) hsh2 hD2 htail
    refine ⟨f3, ?_⟩
    rw [applyGo,
      show rowValue row e.sourceColumn =
        (rowValueS row e.sourceColumn).toJVal from rfl, hset]
    exact h3

theorem mapRows_ok (m : List MappingEntry)
    (hall : ∀ row, ∃ doc, applyMapping row m = .ok doc) :
    ∀ rows, ∃ docs, mapRows m rows = .ok docs := by
  intro rows
  induction rows with
  | nil => exact ⟨[], rfl⟩
  | cons r rs ih =>
    obtain ⟨doc, hdoc⟩ := hall r
    obtain ⟨docs, hdocs⟩ := ih
    exact ⟨doc :: docs, by rw [mapRows, hdoc, hdocs]⟩

/-- C1 (corrected), counterexample: the claim conditions only the target
paths, but an entry with an empty source column is rejected by
`validateMapping` even when its paths are distinct, valid, and
prefix-free. -/
theorem validate_rejects_empty_source_cex :
    validateMapping [⟨"", "x"⟩] = .error [VErr.srcRequired 1] ∧
      validPathB (normPath "x") = true ∧
      (normPaths [(⟨"", "x"⟩ : MappingEntry)]).Nodup ∧
      (∀ p ∈ normPaths [(⟨"", "x"⟩ : MappingEntry)],
        ∀ q ∈ normPaths [(⟨"", "x"⟩ : MappingEntry)],
        dotPrefixB p q = false) :=
  ⟨rfl, by decide, by decide, by decide⟩

/-- C1 (amended): for every mapping whose entries all have a non-empty
source column, and whose target paths are all distinct after
normalization, syntactically valid, and pairwise free of strict
dot-prefix relations, `validate` accepts the mapping, and the folding
step of `transform` never raises `PathCollisionError` on any row set. -/
theorem valid_mapping_accepted_and_fold_ok
    (m : List MappingEntry) (rows : List Row)
    (hsrc : ∀ e ∈ m, e.sourceColumn ≠ "")
    (hvalid : ∀ e ∈ m, validPathB (normPath e.targetPath) = true)
    (hdist : (normPaths m).Nodup)
    (hnopre : ∀ p ∈ normPaths m, ∀ q ∈ normPaths m, dotPrefixB p q = false) :
    validateMapping m = .ok () ∧ ∃ docs, mapRows m rows = .ok docs := by
  constructor
  · rw [validateMapping_ok_iff, validateErrors_eq_nil_iff]
    refine ⟨?_, hvalid, hdist, hnopre⟩
    intro e he
    refine ⟨hsrc e he, ?_⟩
    intro h0
    have hv := hvalid e he
    rw [h0, validPathB_empty] at hv
    cases hv
  · apply mapRows_ok
    intro row
    have hpw_ne : List.Pairwise (fun e1 e2 : MappingEntry =>
        normPath e1.targetPath ≠ normPath e2.targetPath) m := by
      rw [normPaths] at hdist
      exact List.pairwise_map.mp hdist
    have hPW : List.Pairwise (fun e1 e2 : MappingEntry =>
        ¬ SegPre (splitSegs (normPath e1.targetPath))
          (splitSegs (normPath e2.targetPath)) ∧
        ¬ SegPre (splitSegs (normPath e2.targetPath))
          (splitSegs (normPath e1.targetPath))) m := by
      refine pairwise_imp_mem ?_ hpw_ne
      intro e1 e2 he1 he2 hne
      have hm1 : normPath e1.targetPath ∈ normPaths m :=
        (mem_normPaths m _).mpr ⟨e1, he1, rfl⟩
      have hm2 : normPath e2.targetPath ∈ normPaths m :=
        (mem_normPaths m _).mpr ⟨e2, he2, rfl⟩
      constructor
      · intro hsp
        rcases segPre_dotPrefix hsp with heq | hdp
        · exact hne heq
        · rw [hnopre _ hm1 _ hm2] at hdp
          cases hdp
      · intro hsp
        rcases segPre_dotPrefix hsp with heq | hdp
        · exact hne heq.symm
        · rw [hnopre _ hm2 _ hm1] at hdp
          cases hdp
    obtain ⟨doc, hdoc⟩ := applyGo_ok m row [] [] shaped_empty
      (by intro e he q hq; cases hq) hPW
    exact ⟨doc, hdoc⟩

theorem valid_mapping_accepted_and_fold_ok_witness :
    validateMapping [⟨"a", "user.name"⟩, ⟨"b", "contact"⟩] = .ok () ∧
      ∃ docs, mapRows [⟨"a", "user.name"⟩, ⟨"b", "contact"⟩]
        [[("a", SVal.str "J")]] = .ok docs :=
  valid_mapping_accepted_and_fold_ok _ _ (by decide) (by decide)
    (by decide) (by decide)

/-! ### Connection gate (`SecurityService.validateConnectionString`)

`new URL(...)` is modelled for the URL shapes a connection descriptor
takes: `scheme://[userinfo@]host[:port][/path]`.  Following the WHATWG
parser: the scheme is lowercased, the port must be numeric and at most
65535 (otherwise the constructor throws), descriptors without a
`scheme://` head fail to parse.  IPv6 bracket hosts and percent-encoding
are outside the modelled grammar. -/

structure UrlParts where
  scheme : String
  host : String
  port : Option Nat
deriving DecidableEq

/-- Split at the first occurrence of `sep`. -/
def splitFirst (sep : Char) : List Char → Option (List Char × List Char)
  | [] => none
  | c :: cs =>
    if c = sep then some ([], cs)
    else
      match splitFirst sep cs with
      | some (a, b) => some (c :: a, b)
      | none => none

/-- Split at the last occurrence of `sep`. -/
def breakLast (sep : Char) (l : List Char) :
    Option (List Char × List Char) :=
  match splitFirst sep l.reverse with
  | some (a, b) => some (b.reverse, a.reverse)
  | none => none

def isSchemeStart (c : Char) : Bool :=
  ('a' ≤ c && c ≤ 'z') || ('A' ≤ c && c ≤ 'Z')

def isSchemeChar (c : Char) : Bool :=
  isSchemeStart c || ('0' ≤ c && c ≤ '9') || c = '+' || c = '-' || c = '.'

def isDigitChar (c : Char) : Bool := '0' ≤ c && c ≤ '9'

def digitsToNat (l : List Char) : Option Nat :=
  if l.all isDigitChar then
    some (l.foldl (fun n c => n * 10 + (c.toNat - 48)) 0)
  else none

def parseUrl (s : String) : Option UrlParts :=
  match splitFirst ':' s.data with
  | none => none
  | some (schemeRaw, rest) =>
    match schemeRaw with
    | [] => none
    | c0 :: ctail =>
      if ¬ (isSchemeStart c0 && ctail.all isSchemeChar) = true then none
      else
        match rest with
        | '/' :: '/' :: rest2 =>
          let auth := rest2.takeWhile fun c => ¬ c = '/'
          let hostport :=
            match breakLast '@' auth with
            | some (_, hp) => hp
            | none => auth
          match breakLast ':' hostport with
          | some (h, pstr) =>
            if pstr = [] then
              some ⟨toLowerStr ⟨schemeRaw⟩, ⟨h⟩, none⟩
            else
              match digitsToNat pstr with
              | none => none
              | some n =>
                if 65535 < n then none
                else some ⟨toLowerStr ⟨schemeRaw⟩, ⟨h⟩, some n⟩
          | none => some ⟨toLowerStr ⟨schemeRaw⟩, ⟨hostport⟩, none⟩
        | _ => none

def BLOCKED_HOSTS : List String :=
  ["localhost", "127.0.0.1", "::1", "0.0.0.0",
   "169.254.169.254", "metadata.google.internal"]

/-- `/^172\.(1[6-9]|2[0-9]|3[0-1])\./` -/
def range172 : List Char → Bool
  | '1' :: '7' :: '2' :: '.' :: d1 :: d2 :: '.' :: _ =>
    (d1 = '1' && '6' ≤ d2 && d2 ≤ '9') ||
    (d1 = '2' && '0' ≤ d2 && d2 ≤ '9') ||
    (d1 = '3' && (d2 = '0' || d2 = '1'))
  | _ => false

def isHexLower (c : Char) : Bool :=
  ('0' ≤ c && c ≤ '9') || ('a' ≤ c && c ≤ 'f')

/-- `/^(fc|fd)[0-9a-f]{2}:/i` on the already lowercased hostname. -/
def ipv6Private : List Char → Bool
  | 'f' :: c2 :: h1 :: h2 :: ':' :: _ =>
    (c2 = 'c' || c2 = 'd') && isHexLower h1 && isHexLower h2
  | _ => false

/-- The `BLOCKED_IP_RANGES` patterns, applied to the lowercased host. -/
def blockedRange (h : String) : Bool :=
  startsWithL "10.".data h.data ||
  range172 h.data ||
  startsWithL "192.168.".data h.data ||
  startsWithL "127.".data h.data ||
  startsWithL "169.254.".data h.data ||
  ipv6Private h.data ||
  startsWithL "fe80:".data h.data

inductive GateErr where
  | required            -- "Connection string is required"
  | malformed           -- "Invalid connection string format..."
  | protocolNotAllowed  -- "Only PostgreSQL connections are allowed"
  | blockedHost         -- SSRF: blocked host
  | blockedRange        -- SSRF: private network range
  | invalidPort         -- "Invalid port number"
deriving DecidableEq

/-- `SecurityService.validateConnectionString`. -/
def validateConnectionString (s : String) : Except GateErr Unit :=
  if s = "" then .error .required
  else
    match parseUrl s with
    | none => .error .malformed
    | some u =>
      if u.scheme ≠ "postgresql" ∧ u.scheme ≠ "postgres" then
        .error .protocolNotAllowed
      else if toLowerStr u.host ∈ BLOCKED_HOSTS then .error .blockedHost
      else if blockedRange (toLowerStr u.host) then .error .blockedRange
      else
        match u.port with
        | some p => if p < 1 ∨ 65535 < p then .error .invalidPort else .ok ()
        | none => .ok ()

/-- The admission step of `ConnectionService.createConnection`: the whole
gate is skipped when the bypass flag is set
(`if (!securityService.shouldBypassSSRFCheck()) validateConnectionString(...)`). -/
def admitGate (bypass : Bool) (s : String) : Except GateErr Unit :=
  if bypass then .ok () else validateConnectionString s

/-- C6 (corrected), counterexample: with bypass enabled, a descriptor with
a non-PostgreSQL scheme — which the gate itself rejects with
`MalformedDescriptorError`/protocol error — is admitted, as are an
unparsable descriptor and one with an out-of-range port.  No check at
all survives the bypass. -/
theorem bypass_admits_bad_scheme_cex :
    validateConnectionString "http://example.com/db" =
      .error .protocolNotAllowed ∧
    admitGate true "http://example.com/db" = .ok () ∧
    admitGate true "not a url" = .ok () ∧
    admitGate true "postgresql://db.example.com:0/x" = .ok () := by
  exact ⟨rfl, rfl, rfl, rfl⟩

/-- C6 (amended): when the bypass flag is enabled, admission skips the
entire descriptor validation — malformed descriptors, non-PostgreSQL
schemes and out-of-range ports are all admitted; the protocol and port
checks (with the host checks) apply only when bypass is disabled. -/
theorem bypass_skips_all_validation :
    (∀ s, admitGate true s = .ok ()) ∧
    (∀ s, admitGate false s = validateConnectionString s) ∧
    validateConnectionString "postgresql://db.example.com:0/x" =
      .error .invalidPort ∧
    validateConnectionString "nocolonhere" = .error .malformed := by
  exact ⟨fun s => rfl, fun s => rfl, rfl, rfl⟩

/-! ### Connection pool registry (`ConnectionService`) -/

/-- The registry's session map: identifier to `createdAt` (the stored
pool handle is identified by its creation timestamp entry). -/
abbrev RState := List (String × Nat)

def lookupS (id : String) : RState → Option Nat
  | [] => none
  | (i, t) :: r => if i = id then some t else lookupS id r

/-- `Map.set`: replace if present, append otherwise. -/
def setS (id : String) (t : Nat) : RState → RState
  | [] => [(id, t)]
  | (i, t2) :: r => if i = id then (i, t) :: r else (i, t2) :: setS id t r

def TTL_MS : Nat := 30 * 60 * 1000
def MAX_CONNECTIONS : Nat := 100

inductive CreateErr where
  | gate (e : GateErr)      -- ValidationError from the SSRF gate
  | capacityExceeded        -- "Maximum number of concurrent connections reached..."
  | connectionFailed        -- ConnectionError from the liveness probe
deriving DecidableEq

/-- `ConnectionService.createConnection`: gate (unless bypassed), then
capacity check, then the liveness probe (its outcome is the oracle
`probeOk`), then registration under a fresh random identifier. -/
def createConnection (bypass : Bool) (descr : String) (probeOk : Bool)
    (id : String) (now : Nat) (s : RState) : Except CreateErr RState :=
  match admitGate bypass descr with
  | .error e => .error (.gate e)
  | .ok () =>
    if MAX_CONNECTIONS ≤ s.length then .error .capacityExceeded
    else if probeOk = false then .error .connectionFailed
    else .ok (setS id now s)

inductive GetErr where
  | connectionError (msg : String)
deriving DecidableEq

/-- `ConnectionService.getPool`. -/
def getPool (id : String) (s : RState) : Except GetErr Nat :=
  match lookupS id s with
  | none =>
    .error (.connectionError "Connection not found or expired. Please reconnect.")
  | some t => .ok t

/-- `ConnectionService.cleanupStaleConnections`: remove every session
with `now - createdAt > TTL_MS`. -/
def cleanupStaleConnections (now : Nat) (s : RState) : RState :=
  s.filter fun e => decide (now - e.2 ≤ TTL_MS)

def closeAll (_ : RState) : RState := []

/-- The registry operations, with the external oracles (gate outcome via
the descriptor, probe outcome, random identifier, clock) as data. -/
inductive ROp where
  | create (bypass : Bool) (descr : String) (probeOk : Bool)
      (id : String) (now : Nat)
  | closeAllOp
  | cleanup (now : Nat)
  | getPoolOp (id : String)

/-- One registry operation; failed operations leave the map unchanged. -/
def applyROp (s : RState) : ROp → RState
  | .create b d p id now =>
    match createConnection b d p id now s with
    | .ok s2 => s2
    | .error _ => s
  | .closeAllOp => closeAll s
  | .cleanup now => cleanupStaleConnections now s
  | .getPoolOp _ => s

def reachFrom (s : RState) (ops : List ROp) : RState := ops.foldl applyROp s

/-- The registry states reachable from the empty registry. -/
def reach (ops : List ROp) : RState := reachFrom [] ops

theorem setS_length (id : String) (t : Nat) :
    ∀ s : RState, (setS id t s).length ≤ s.length + 1 := by
  intro s
  induction s with
  | nil => simp [setS]
  | cons e r ih =>
    obtain ⟨i, t2⟩ := e
    by_cases h : i = id
    · simp [setS, h]
    · simp only [setS, if_neg h, List.length_cons]
      omega

theorem createConnection_ok {b : Bool} {d : String} {p : Bool} {id : String}
    {now : Nat} {s s2 : RState}
    (h : createConnection b d p id now s = .ok s2) :
    s.length < 100 ∧ s2 = setS id now s := by
  rw [createConnection] at h
  cases hg : admitGate b d with
  | error e => rw [hg] at h; cases h
  | ok u =>
    cases u
    rw [hg] at h
    by_cases hc : MAX_CONNECTIONS ≤ s.length
    · rw [if_pos hc] at h; cases h
    · rw [if_neg hc] at h
      by_cases hp : p = false
      · rw [if_pos hp] at h; cases h
      · rw [if_neg hp] at h
        injection h with h2
        rw [MAX_CONNECTIONS] at hc
        exact ⟨by omega, h2.symm⟩

theorem applyROp_le (s : RState) (op : ROp) (h : s.length ≤ 100) :
    (applyROp s op).length ≤ 100 := by
  cases op with
  | create b d p id now =>
    rw [applyROp]
    cases hc : createConnection b d p id now s with
    | error e => exact h
    | ok s2 =>
      obtain ⟨hlt, rfl⟩ := createConnection_ok hc
      show (setS id now s).length ≤ 100
      have := setS_length id now s
      omega
  | closeAllOp => simp [applyROp, closeAll]
  | cleanup now =>
    rw [applyROp, cleanupStaleConnections]
    exact le_trans (List.length_filter_le _ _) h
  | getPoolOp id => exact h

theorem reachFrom_le :
    ∀ (ops : List ROp) (s : RState), s.length ≤ 100 →
      (reachFrom s ops).length ≤ 100 := by
  intro ops
  induction ops with
  | nil => intro s h; exact h
  | cons op ops ih =>
    intro s h
    exact ih (applyROp s op) (applyROp_le s op h)

/-- C8: in every reachable registry state the number of registered
sessions is at most 100; a create invoked on a full registry whose gate
phase passes fails with `CapacityExceededError` and registers nothing;
and on any registry below capacity (for instance after a close or an
expiry removed a session) a create with a passing gate and probe
succeeds and registers the new session. -/
theorem registry_capacity_invariant :
    (∀ ops : List ROp, (reach ops).length ≤ 100) ∧
    (∀ (s : RState) (b : Bool) (d : String) (p : Bool) (id : String)
      (now : Nat), admitGate b d = .ok () → 100 ≤ s.length →
      createConnection b d p id now s = .error .capacityExceeded ∧
      applyROp s (.create b d p id now) = s) ∧
    (∀ (s : RState) (b : Bool) (d : String) (id : String) (now : Nat),
      admitGate b d = .ok () → s.length < 100 →
      createConnection b d true id now s = .ok (setS id now s)) := by
  refine ⟨fun ops => reachFrom_le ops [] (by simp), ?_, ?_⟩
  · intro s b d p id now hg hlen
    have hc : createConnection b d p id now s = .error .capacityExceeded := by
      rw [createConnection, hg]
      rw [if_pos (by rw [MAX_CONNECTIONS]; omega)]
    refine ⟨hc, ?_⟩
    rw [applyROp, hc]
  · intro s b d id now hg hlen
    rw [createConnection, hg,
      if_neg (by rw [MAX_CONNECTIONS]; omega), if_neg (by simp)]

/-- A concrete full registry of 100 sessions. -/
def full100 : RState := (List.range 100).map fun i => (toString i, 0)

theorem registry_capacity_invariant_witness :
    createConnection true "postgresql://db.example.com/x" true "fresh" 7
      full100 = .error .capacityExceeded :=
  (registry_capacity_invariant.2.1 full100 true
    "postgresql://db.example.com/x" true "fresh" 7 rfl
    (by simp [full100])).1

/-- C9: `getPool` fails exactly when the identifier is absent from the
registry map, and the failure is the identical error — same kind, same
message — whether the identifier never existed or belonged to a session
since removed: the two states are indistinguishable to the caller. -/
theorem lookup_failure_indistinguishable :
    (∀ (s : RState) (id : String),
      getPool id s = .error (.connectionError
        "Connection not found or expired. Please reconnect.") ↔
      lookupS id s = none) ∧
    (∀ (s1 s2 : RState) (id1 id2 : String),
      lookupS id1 s1 = none → lookupS id2 s2 = none →
      getPool id1 s1 = getPool id2 s2) := by
  constructor
  · intro s id
    constructor
    · intro h
      cases hl : lookupS id s with
      | none => rfl
      | some t => rw [getPool, hl] at h; cases h
    · intro h
      rw [getPool, h]
  · intro s1 s2 id1 id2 h1 h2
    rw [getPool, h1, getPool, h2]

theorem lookup_failure_indistinguishable_witness :
    getPool "neverexisted" [] = getPool "evicted" [("other", 5)] :=
  lookup_failure_indistinguishable.2 [] [("other", 5)]
    "neverexisted" "evicted" rfl rfl

/-- C10: a session older than the 30-minute TTL is still served by
`getPool` for as long as no sweep has removed it — the lookup consults
only the map, never the age; the sweep removes exactly the over-TTL
sessions when it runs (every 60 seconds); and an over-TTL session still
counts against the 100-session capacity until swept. -/
theorem stale_session_served_until_sweep :
    (∀ (s : RState) (id : String) (t now : Nat),
      lookupS id s = some t → TTL_MS < now - t → getPool id s = .ok t) ∧
    (∀ (s : RState) (now : Nat) (id : String),
      (∀ u, (id, u) ∈ s → TTL_MS < now - u) →
      lookupS id (cleanupStaleConnections now s) = none) ∧
    (∀ (s : RState) (d : String) (p : Bool) (id : String) (now : Nat),
      100 ≤ s.length → (∀ e ∈ s, TTL_MS < now - e.2) →
      createConnection true d p id now s = .error .capacityExceeded) := by
  refine ⟨?_, ?_, ?_⟩
  · intro s id t now hl _
    rw [getPool, hl]
  · intro s now id hall
    induction s with
    | nil => rfl
    | cons e r ih =>
      obtain ⟨i, u⟩ := e
      rw [cleanupStaleConnections, List.filter_cons]
      by_cases hkeep : now - u ≤ TTL_MS
      · rw [if_pos (by simpa using hkeep)]
        rw [lookupS]
        have hne2 : ¬ i = id := by
          intro he
          subst he
          exact absurd (hall u (List.mem_cons_self _ _)) (by omega)
        rw [if_neg hne2]
        exact ih fun u2 hu2 => hall u2 (List.mem_cons_of_mem _ hu2)
      · rw [if_neg (by simpa using hkeep)]
        exact ih fun u2 hu2 => hall u2 (List.mem_cons_of_mem _ hu2)
  · intro s d p id now hlen _
    rw [createConnection, show admitGate true d = .ok () from rfl,
      if_pos (by rw [MAX_CONNECTIONS]; omega)]

theorem stale_session_served_until_sweep_witness :
    getPool "sess" [("sess", 0)] = .ok 0 ∧
      lookupS "sess"
        (cleanupStaleConnections 3600000 [("sess", 0)]) = none :=
  ⟨stale_session_served_until_sweep.1 [("sess", 0)] "sess" 0 3600000 rfl
    (by decide),
   stale_session_served_until_sweep.2.1 [("sess", 0)] 3600000 "sess"
    (by intro u hu; simp at hu; subst hu; decide)⟩

end RevETL
